import Mathlib

/-!
A shallow embedding of the cluster linearization engine of
`src/cluster_linearize.h` (namespace `cluster_linearize`), together with
proofs and refutations of the specified properties.

Transaction positions are modelled as natural numbers, bitsets as `Finset ℕ`
(iteration in ascending order becomes `Finset.sort (· ≤ ·)`), vectors as
`List`s indexed by position, and machine integers as `Nat`/`Int` (with
explicit `% 2 ^ 64` where 64-bit wraparound matters).  Components of the
repository that are used by `cluster_linearize.h` but whose sources are not
part of the tree (`util/feefrac.h`, `random.h`, `util/vecdeque.h`) are
modelled from the specification; their definitions say so explicitly.
-/

namespace ClusterLinearize

/-! ## FeeFrac -/

/-- Modelled from the spec: `util/feefrac.h` is not in the source tree.  The
spec defines a FeeFrac as an ordered pair (fee ∈ ℤ, size ∈ ℕ), with
componentwise addition and subtraction, emptiness iff size = 0, and
comparison by cross-multiplication. -/
structure FeeFrac where
  fee : Int
  size : Nat
deriving DecidableEq

/-- The zero/empty FeeFrac. -/
def FeeFrac.zero : FeeFrac := ⟨0, 0⟩

/-- Modelled from the spec: componentwise addition of FeeFracs. -/
def FeeFrac.add (a b : FeeFrac) : FeeFrac := ⟨a.fee + b.fee, a.size + b.size⟩

/-- Modelled from the spec: componentwise subtraction of FeeFracs (only ever
applied when the second operand's transactions form a subset of the first's,
so the size subtraction is exact). -/
def FeeFrac.sub (a b : FeeFrac) : FeeFrac := ⟨a.fee - b.fee, a.size - b.size⟩

instance : Add FeeFrac := ⟨FeeFrac.add⟩

instance : Sub FeeFrac := ⟨FeeFrac.sub⟩

/-- Modelled from the spec: a FeeFrac is empty iff its size is 0. -/
def FeeFrac.IsEmpty (a : FeeFrac) : Bool := a.size == 0

/-- Modelled from the spec: three-way feerate comparison by
cross-multiplication, returned as the sign of `a.fee * b.size - b.fee *
a.size`.  `FeeRateCompare a b > 0` means a has strictly higher feerate. -/
def FeeRateCompare (a b : FeeFrac) : Int := a.fee * (b.size : Int) - b.fee * (a.size : Int)

/-- Modelled from the spec: the `a >> b` operator, "a has strictly higher
feerate than b" by cross-multiplication.  Empty FeeFracs compare neither
higher nor lower than anything. -/
def FeeRateGT (a b : FeeFrac) : Bool := decide (b.fee * (a.size : Int) < a.fee * (b.size : Int))

/-- Modelled from the spec: the `a << b` operator, "a has strictly lower
feerate than b". -/
def FeeRateLT (a b : FeeFrac) : Bool := FeeRateGT b a

/-! ## Pseudorandom generator -/

/-- Modelled from the spec: `random.h` (`InsecureRandomContext`) is not in
the source tree; the spec only requires a fast insecure PRNG whose whole
output stream is a deterministic pure function of a caller-supplied 64-bit
seed.  This is the splitmix64 step function; all arithmetic is modulo 2^64.
Returns (output, next state). -/
def rngNext (s : Nat) : Nat × Nat :=
  let s2 := (s + 0x9E3779B97F4A7C15) % 2 ^ 64
  let z0 := ((s2 ^^^ (s2 >>> 30)) * 0xBF58476D1CE4E5B9) % 2 ^ 64
  let z1 := ((z0 ^^^ (z0 >>> 27)) * 0x94D049BB133111EB) % 2 ^ 64
  (z1 ^^^ (z1 >>> 31), s2)

/-- Modelled from the spec: `randrange(n)`, a value in [0, n).  (The real
generator's exact reduction is unspecified; we reduce one 64-bit draw
modulo n.)  Total: yields 0 when n = 0, a case the code never exercises. -/
def rngRange (s : Nat) (n : Nat) : Nat × Nat :=
  let (v, s2) := rngNext s
  (if n = 0 then 0 else v % n, s2)

/-- Modelled from the spec: `randbool()`, the low bit of one draw. -/
def rngBool (s : Nat) : Bool × Nat :=
  let (v, s2) := rngNext s
  (v % 2 == 1, s2)

/-- Modelled from the spec: `randbits<1>()`, one random bit as a number. -/
def rngBits1 (s : Nat) : Nat × Nat :=
  let (v, s2) := rngNext s
  (v % 2, s2)

/-! ## Bitset helpers -/

/-- Ascending ordering of a multiset of naturals, by structurally recursive
insertion sort (so that it evaluates inside the kernel). -/
def msortAsc (m : Multiset ℕ) : List ℕ :=
  Quotient.liftOn m (fun l => l.insertionSort (· ≤ ·)) fun a b h =>
    List.eq_of_perm_of_sorted
      ((a.perm_insertionSort (· ≤ ·)).trans (h.trans (b.perm_insertionSort (· ≤ ·)).symm))
      (List.sorted_insertionSort (· ≤ ·) a) (List.sorted_insertionSort (· ≤ ·) b)

/-- Ascending iteration order of a bitset (`BitSet` iteration is ascending). -/
def sortAsc (s : Finset ℕ) : List ℕ := msortAsc s.val

theorem msortAsc_coe (m : Multiset ℕ) : (msortAsc m : Multiset ℕ) = m :=
  Quotient.inductionOn m fun l => Quot.sound (l.perm_insertionSort (· ≤ ·))

theorem msortAsc_sorted (m : Multiset ℕ) : (msortAsc m).Sorted (· ≤ ·) :=
  Quotient.inductionOn m fun l => List.sorted_insertionSort (· ≤ ·) l

/-- The executable sort agrees with Mathlib's `Finset.sort`, giving access to
its lemma library. -/
theorem sortAsc_eq (s : Finset ℕ) : sortAsc s = s.sort (· ≤ ·) := by
  refine List.eq_of_perm_of_sorted (Multiset.coe_eq_coe.mp ?_) (msortAsc_sorted s.val)
    (s.sort_sorted (· ≤ ·))
  rw [sortAsc, msortAsc_coe, Finset.sort_eq]

theorem mem_sortAsc {s : Finset ℕ} {i : ℕ} : i ∈ sortAsc s ↔ i ∈ s := by
  rw [sortAsc_eq]; exact Finset.mem_sort (· ≤ ·)

/-- The `First()` operation of `BitSet` (lowest element; 0 for the empty set,
which the code never queries). -/
def setFirst (s : Finset ℕ) : ℕ := (sortAsc s).headD 0

/-- The `Last()` operation of `BitSet` (highest element; 0 for the empty set,
which the code never queries). -/
def setLast (s : Finset ℕ) : ℕ := (sortAsc s).getLastD 0

/-- The `Overlaps` test of `BitSet`. -/
def setOverlaps (a b : Finset ℕ) : Bool := decide ((a ∩ b).Nonempty)

/-! ## DepGraph -/

/-- One entry of `DepGraph`: the transaction's own feerate and its ancestor
and descendant closures (both including the transaction itself). -/
structure Entry where
  feerate : FeeFrac
  ancestors : Finset ℕ
  descendants : Finset ℕ
deriving DecidableEq

/-- The default (hole) entry; corresponds to a default-constructed `Entry`. -/
def defaultEntry : Entry := ⟨FeeFrac.zero, ∅, ∅⟩

/-- The dependency graph: per-position entries plus the set of used
positions.  `entries` corresponds to the backing `std::vector<Entry>`. -/
structure DepGraph where
  entries : List Entry
  used : Finset ℕ
deriving DecidableEq

/-- `DepGraph::Positions()`. -/
def DepGraph.Positions (g : DepGraph) : Finset ℕ := g.used

/-- `DepGraph::PositionRange()` (the size of the backing entries vector). -/
def DepGraph.PositionRange (g : DepGraph) : ℕ := g.entries.length

/-- `DepGraph::TxCount()`. -/
def DepGraph.TxCount (g : DepGraph) : ℕ := g.used.card

/-- Positional lookup in an entries vector (reads past the end return the
default entry; the code never performs them). -/
def getEntry : List Entry → ℕ → Entry
  | [], _ => defaultEntry
  | e :: _, 0 => e
  | _ :: t, n + 1 => getEntry t n

/-- Entry lookup (reads of holes return the default entry, standing in for
the stale data the code never relies on). -/
def DepGraph.entry (g : DepGraph) (i : ℕ) : Entry := getEntry g.entries i

/-- `DepGraph::FeeRate(i)` for a single transaction. -/
def DepGraph.FeeRate (g : DepGraph) (i : ℕ) : FeeFrac := (g.entry i).feerate

/-- `DepGraph::Ancestors(i)`. -/
def DepGraph.Ancestors (g : DepGraph) (i : ℕ) : Finset ℕ := (g.entry i).ancestors

/-- `DepGraph::Descendants(i)`. -/
def DepGraph.Descendants (g : DepGraph) (i : ℕ) : Finset ℕ := (g.entry i).descendants

/-- The default-constructed (empty) DepGraph. -/
def DepGraph.empty : DepGraph := ⟨[], ∅⟩

/-- The first unused position: `(SetType::Fill(SetType::Size()) -
m_used).First()`.  Positions are unbounded naturals here, so this is the
least natural number not in `used`; it agrees with the code whenever the
code's fixed capacity is not exhausted (otherwise the code asserts).  Since
all used positions are below `bound` in reachable graphs, searching
`[0, bound]` finds it. -/
def firstUnused (used : Finset ℕ) (bound : ℕ) : ℕ :=
  ((List.range (bound + 1)).filter (fun i => i ∉ used)).headD 0

/-- `DepGraph::AddTransaction(feefrac)`: place a fresh transaction with the
given feerate at the first available position, with singleton closures.
Returns the updated graph and the chosen position. -/
def DepGraph.AddTransaction (g : DepGraph) (feefrac : FeeFrac) : DepGraph × ℕ :=
  let newIdx := firstUnused g.used g.entries.length
  let e : Entry := ⟨feefrac, {newIdx}, {newIdx}⟩
  let entries := if newIdx = g.entries.length then g.entries ++ [e] else g.entries.set newIdx e
  (⟨entries, insert newIdx g.used⟩, newIdx)

/-- Back-to-front worker for the trailing-entry trimming loop of
`DepGraph::RemoveTransactions`: `rev` is the reversed entries list and `len`
its (remaining) length; drop entries while the last position is unused. -/
def revTrim (used : Finset ℕ) : List Entry → ℕ → List Entry
  | [], _ => []
  | e :: t, len => if (len - 1) ∈ used then e :: t else revTrim used t (len - 1)

/-- The trailing-entry trimming loop of `DepGraph::RemoveTransactions`: pop
entries from the back while the last position is unused. -/
def trimTrailing (l : List Entry) (used : Finset ℕ) : List Entry :=
  (revTrim used l.reverse l.length).reverse

/-- `DepGraph::RemoveTransactions(del)`: clear `del` from the used set, trim
trailing unused entries, and mask every remaining closure by the new used
set. -/
def DepGraph.RemoveTransactions (g : DepGraph) (del : Finset ℕ) : DepGraph :=
  let used := g.used \ del
  let entries := (trimTrailing g.entries used).map fun e =>
    { e with ancestors := e.ancestors ∩ used, descendants := e.descendants ∩ used }
  ⟨entries, used⟩

/-- Apply `f i e` to the entry at each position i of the list, starting the
index count at `start`.  (Functional form of the two in-place update loops of
`AddDependencies`, which only touch positions inside the entries vector.) -/
def updateEntries (f : ℕ → Entry → Entry) (start : ℕ) : List Entry → List Entry
  | [] => []
  | e :: t => f start e :: updateEntries f (start + 1) t

/-- The set `par_anc` computed by `AddDependencies`: all ancestors of the
parents that are not already ancestors of the child. -/
def parAncOf (g : DepGraph) (parents : Finset ℕ) (child : ℕ) : Finset ℕ :=
  ((parents \ g.Ancestors child).biUnion g.Ancestors) \ g.Ancestors child

/-- `DepGraph::AddDependencies(parents, child)`: to each new ancestor add the
child's descendants as descendants, and to each descendant of the child add
the new ancestors as ancestors. -/
def DepGraph.AddDependencies (g : DepGraph) (parents : Finset ℕ) (child : ℕ) : DepGraph :=
  let parAnc := parAncOf g parents child
  if parAnc = ∅ then g
  else
    let chlDes := g.Descendants child
    let entries := updateEntries (fun i e =>
      { e with
        descendants := if i ∈ parAnc then e.descendants ∪ chlDes else e.descendants
        ancestors := if i ∈ chlDes then e.ancestors ∪ parAnc else e.ancestors }) 0 g.entries
    ⟨entries, g.used⟩

/-- `DepGraph::GetReducedParents(i)`: starting from all proper ancestors,
scan in ascending order; each position still present removes its own
ancestors from the candidate set and re-inserts itself. -/
def DepGraph.GetReducedParents (g : DepGraph) (i : ℕ) : Finset ℕ :=
  let init := (g.Ancestors i).erase i
  (sortAsc init).foldl (fun parents p =>
    if p ∈ parents then insert p (parents \ g.Ancestors p) else parents) init

/-- `DepGraph::GetReducedChildren(i)`: mirror image of `GetReducedParents`. -/
def DepGraph.GetReducedChildren (g : DepGraph) (i : ℕ) : Finset ℕ :=
  let init := (g.Descendants i).erase i
  (sortAsc init).foldl (fun children c =>
    if c ∈ children then insert c (children \ g.Descendants c) else children) init

/-- `DepGraph::FeeRate(elems)` for a set: the componentwise sum of the
feerates of the members. -/
def DepGraph.FeeRateSet (g : DepGraph) (elems : Finset ℕ) : FeeFrac :=
  (sortAsc elems).foldl (fun acc p => acc + g.FeeRate p) FeeFrac.zero

/-- `DepGraph::IsAcyclic()`: every used position's ancestor and descendant
closures intersect in exactly that position. -/
def DepGraph.IsAcyclic (g : DepGraph) : Bool :=
  (sortAsc g.used).all fun i => (g.Ancestors i ∩ g.Descendants i) == ({i} : Finset ℕ)

/-! ## Chunk computation -/

/-- One step of the chunking loop of `ChunkLinearization`, acting on the
reversed chunk-feerate list (head = most recent chunk): absorb previous
chunks into the new one while the new chunk has strictly higher feerate. -/
def chunkAbsorb (newChunk : FeeFrac) : List FeeFrac → List FeeFrac
  | [] => [newChunk]
  | h :: t => if FeeRateGT newChunk h then chunkAbsorb (newChunk + h) t else newChunk :: h :: t

/-- `ChunkLinearization(depgraph, linearization)`: the feerates of the chunks
of a linearization, in order. -/
def ChunkLinearization (g : DepGraph) (linearization : List ℕ) : List FeeFrac :=
  (linearization.foldl (fun acc i => chunkAbsorb (g.FeeRate i) acc) []).reverse

/-! ## Entry-vector lemmas -/

theorem getEntry_of_length_le : ∀ (l : List Entry) (i : ℕ), l.length ≤ i → getEntry l i = defaultEntry
  | [], _, _ => rfl
  | _ :: _, 0, h => absurd h (by simp)
  | _ :: t, n + 1, h => getEntry_of_length_le t n (by simpa using h)

theorem getEntry_append_lt : ∀ (l m : List Entry) (i : ℕ), i < l.length →
    getEntry (l ++ m) i = getEntry l i
  | _ :: _, _, 0, _ => rfl
  | _ :: t, m, n + 1, h => getEntry_append_lt t m n (by simpa using h)
  | [], _, i, h => absurd h (by simp)

theorem getEntry_append_self : ∀ (l : List Entry) (e : Entry), getEntry (l ++ [e]) l.length = e
  | [], _ => rfl
  | _ :: t, e => getEntry_append_self t e

theorem getEntry_set_self : ∀ (l : List Entry) (i : ℕ) (e : Entry), i < l.length →
    getEntry (l.set i e) i = e
  | _ :: _, 0, _, _ => rfl
  | _ :: t, n + 1, e, h => getEntry_set_self t n e (by simpa using h)
  | [], i, _, h => absurd h (by simp)

theorem getEntry_set_ne : ∀ (l : List Entry) (i j : ℕ) (e : Entry), j ≠ i →
    getEntry (l.set i e) j = getEntry l j
  | [], _, _, _, _ => by simp [List.set]
  | _ :: _, 0, 0, _, h => absurd rfl h
  | _ :: _, 0, _ + 1, _, _ => rfl
  | _ :: _, _ + 1, 0, _, _ => rfl
  | _ :: t, i + 1, j + 1, e, h => getEntry_set_ne t i j e (by omega)

theorem getEntry_map (f : Entry → Entry) (hf : f defaultEntry = defaultEntry) :
    ∀ (l : List Entry) (i : ℕ), getEntry (l.map f) i = f (getEntry l i)
  | [], _ => by simp [getEntry, hf]
  | _ :: _, 0 => rfl
  | _ :: t, n + 1 => getEntry_map f hf t n

theorem getEntry_pref {l m : List Entry} (h : l <+: m) {i : ℕ} (hi : i < l.length) :
    getEntry l i = getEntry m i := by
  obtain ⟨t, rfl⟩ := h
  exact (getEntry_append_lt l t i hi).symm

/-! ## `firstUnused` lemmas -/

theorem firstUnused_spec {used : Finset ℕ} {bound : ℕ} (h : ∀ j ∈ used, j < bound) :
    firstUnused used bound ∉ used ∧ firstUnused used bound ≤ bound ∧
      ∀ j < firstUnused used bound, j ∈ used := by
  have hmem : bound ∈ (List.range (bound + 1)).filter (fun i => i ∉ used) := by
    simp only [List.mem_filter, List.mem_range, decide_eq_true_eq]
    exact ⟨Nat.lt_succ_self bound, fun hb => absurd (h bound hb) (lt_irrefl bound)⟩
  obtain ⟨x, t, hxt⟩ : ∃ x t, (List.range (bound + 1)).filter (fun i => i ∉ used) = x :: t := by
    rcases hl : (List.range (bound + 1)).filter (fun i => i ∉ used) with _ | ⟨x, t⟩
    · rw [hl] at hmem; simp at hmem
    · exact ⟨x, t, rfl⟩
  have hsorted : ((List.range (bound + 1)).filter (fun i => i ∉ used)).Pairwise (· < ·) :=
    (List.pairwise_lt_range (bound + 1)).sublist (List.filter_sublist _)
  have hfu : firstUnused used bound = x := by rw [firstUnused, hxt]; rfl
  have hxin : x ∈ (List.range (bound + 1)).filter (fun i => i ∉ used) := by
    rw [hxt]; exact List.mem_cons_self x t
  simp only [List.mem_filter, List.mem_range, decide_eq_true_eq] at hxin
  refine ⟨hfu ▸ hxin.2, hfu ▸ (by omega), fun j hj => ?_⟩
  by_contra hju
  have hjmem : j ∈ (List.range (bound + 1)).filter (fun i => i ∉ used) := by
    simp only [List.mem_filter, List.mem_range, decide_eq_true_eq]
    exact ⟨by omega, hju⟩
  rw [hxt] at hjmem hsorted
  rcases List.mem_cons.mp hjmem with rfl | hjt
  · omega
  · have := (List.pairwise_cons.mp hsorted).1 j hjt; omega

/-! ## Trimming lemmas -/

theorem revTrim_suffix (u : Finset ℕ) : ∀ (rev : List Entry) (len : ℕ), revTrim u rev len <:+ rev
  | [], _ => List.nil_suffix
  | e :: t, len => by
    rw [revTrim]
    split
    · exact List.suffix_refl _
    · exact (revTrim_suffix u t (len - 1)).trans (List.suffix_cons e t)

theorem revTrim_length_le (u : Finset ℕ) (rev : List Entry) (len : ℕ) :
    (revTrim u rev len).length ≤ rev.length :=
  (revTrim_suffix u rev len).length_le

theorem revTrim_last_used (u : Finset ℕ) : ∀ (rev : List Entry) (len : ℕ), rev.length = len →
    revTrim u rev len = [] ∨ ((revTrim u rev len).length - 1) ∈ u
  | [], _, _ => Or.inl rfl
  | e :: t, len, hlen => by
    by_cases hc : (len - 1) ∈ u
    · rw [revTrim, if_pos hc]
      right
      simp only [List.length_cons] at hlen ⊢
      have : t.length + 1 - 1 = len - 1 := by omega
      rw [this]
      exact hc
    · rw [revTrim, if_neg hc]
      exact revTrim_last_used u t (len - 1) (by simp only [List.length_cons] at hlen; omega)

theorem revTrim_dropped_unused (u : Finset ℕ) : ∀ (rev : List Entry) (len : ℕ), rev.length = len →
    ∀ j, (revTrim u rev len).length ≤ j → j < len → j ∉ u
  | [], len, hlen => by
    intro j h1 h2
    simp only [List.length_nil] at hlen
    omega
  | e :: t, len, hlen => by
    simp only [List.length_cons] at hlen
    by_cases hc : (len - 1) ∈ u
    · rw [revTrim, if_pos hc]
      intro j h1 h2
      simp only [List.length_cons] at h1
      omega
    · rw [revTrim, if_neg hc]
      intro j h1 h2 hju
      rcases Nat.lt_or_ge j (len - 1) with hj | hj
      · exact revTrim_dropped_unused u t (len - 1) (by omega) j h1 hj hju
      · have : j = len - 1 := by omega
        subst this
        exact hc hju

theorem trimTrailing_length_le (l : List Entry) (u : Finset ℕ) :
    (trimTrailing l u).length ≤ l.length := by
  rw [trimTrailing]
  simpa using (revTrim_length_le u l.reverse l.length).trans (by simp)

theorem trimTrailing_pref (l : List Entry) (u : Finset ℕ) : trimTrailing l u <+: l := by
  rw [trimTrailing]
  obtain ⟨t, ht⟩ := revTrim_suffix u l.reverse l.length
  exact ⟨t.reverse, by rw [← List.reverse_append, ht, List.reverse_reverse]⟩

theorem trimTrailing_getEntry (l : List Entry) (u : Finset ℕ) {i : ℕ}
    (hi : i < (trimTrailing l u).length) : getEntry (trimTrailing l u) i = getEntry l i :=
  getEntry_pref (trimTrailing_pref l u) hi

theorem trimTrailing_keeps (l : List Entry) (u : Finset ℕ) {i : ℕ} (hiu : i ∈ u)
    (hil : i < l.length) : i < (trimTrailing l u).length := by
  by_contra hcon
  refine revTrim_dropped_unused u l.reverse l.length (by simp) i ?_ hil hiu
  have : (trimTrailing l u).length = (revTrim u l.reverse l.length).length := by
    rw [trimTrailing]; simp
  omega

theorem trimTrailing_last_used (l : List Entry) (u : Finset ℕ) :
    trimTrailing l u = [] ∨ ((trimTrailing l u).length - 1) ∈ u := by
  rcases revTrim_last_used u l.reverse l.length (by simp) with h | h
  · left; rw [trimTrailing, h]; rfl
  · right; rw [trimTrailing]; simpa using h

/-! ## `updateEntries` lemmas -/

theorem updateEntries_length (f : ℕ → Entry → Entry) :
    ∀ (s : ℕ) (l : List Entry), (updateEntries f s l).length = l.length
  | _, [] => rfl
  | s, _ :: t => by simp [updateEntries, updateEntries_length f (s + 1) t]

theorem getEntry_updateEntries (f : ℕ → Entry → Entry) :
    ∀ (s : ℕ) (l : List Entry) (i : ℕ), i < l.length →
      getEntry (updateEntries f s l) i = f (s + i) (getEntry l i)
  | _, [], i, h => absurd h (by simp)
  | s, e :: t, 0, _ => by simp [updateEntries, getEntry]
  | s, e :: t, n + 1, h => by
    rw [updateEntries, show getEntry (e :: t) (n + 1) = getEntry t n from rfl,
      show getEntry (f s e :: updateEntries f (s + 1) t) (n + 1)
        = getEntry (updateEntries f (s + 1) t) n from rfl,
      getEntry_updateEntries f (s + 1) t n (by simpa using h)]
    ring_nf

/-! ## `setLast` lemmas -/

theorem sorted_le_getLastD : ∀ {l : List ℕ}, l.Sorted (· ≤ ·) → ∀ x ∈ l, x ≤ l.getLastD 0
  | [], _, x, hx => absurd hx (by simp)
  | [a], _, x, hx => by simp at hx; simp [hx]
  | a :: b :: t, hs, x, hx => by
    have hs' := (List.sorted_cons.mp hs).2
    have hlast : (a :: b :: t).getLastD 0 = (b :: t).getLastD 0 := by
      simp [List.getLastD_cons]
    rcases List.mem_cons.mp hx with rfl | hxt
    · have hab : x ≤ b := (List.sorted_cons.mp hs).1 b (List.mem_cons_self b t)
      have := sorted_le_getLastD hs' b (List.mem_cons_self b t)
      omega
    · have := sorted_le_getLastD hs' x hxt
      omega

theorem getLastD_mem : ∀ {l : List ℕ}, l ≠ [] → l.getLastD 0 ∈ l
  | [], h => absurd rfl h
  | [a], _ => by simp
  | a :: b :: t, _ => by
    have : (a :: b :: t).getLastD 0 = (b :: t).getLastD 0 := by
      simp [List.getLastD_cons]
    rw [this]
    exact List.mem_cons_of_mem a (getLastD_mem (by simp))

theorem headD_mem : ∀ {l : List ℕ}, l ≠ [] → l.headD 0 ∈ l
  | [], h => absurd rfl h
  | _ :: _, _ => by simp

theorem setFirst_mem {s : Finset ℕ} (h : s.Nonempty) : setFirst s ∈ s := by
  rw [setFirst]
  apply mem_sortAsc.mp
  apply headD_mem
  intro hnil
  obtain ⟨x, hx⟩ := h
  have hx2 : x ∈ sortAsc s := mem_sortAsc.mpr hx
  rw [hnil] at hx2
  exact absurd hx2 (List.not_mem_nil x)

theorem setLast_mem {s : Finset ℕ} (h : s.Nonempty) : setLast s ∈ s := by
  rw [setLast, sortAsc_eq]
  obtain ⟨x, hx⟩ := h
  have hne : s.sort (· ≤ ·) ≠ [] :=
    List.ne_nil_of_mem ((Finset.mem_sort (· ≤ ·)).mpr hx)
  exact (Finset.mem_sort (· ≤ ·)).mp (getLastD_mem hne)

theorem le_setLast {s : Finset ℕ} {j : ℕ} (h : j ∈ s) : j ≤ setLast s := by
  rw [setLast, sortAsc_eq]
  exact sorted_le_getLastD (s.sort_sorted (· ≤ ·)) j ((Finset.mem_sort (· ≤ ·)).mpr h)

/-! ## Characterizations of the DepGraph mutations -/

theorem AddTransaction_used (g : DepGraph) (fr : FeeFrac) :
    (g.AddTransaction fr).1.used = insert (g.AddTransaction fr).2 g.used := rfl

theorem AddTransaction_idx (g : DepGraph) (fr : FeeFrac) :
    (g.AddTransaction fr).2 = firstUnused g.used g.entries.length := rfl

theorem AddTransaction_length (g : DepGraph) (fr : FeeFrac) :
    (g.AddTransaction fr).1.entries.length =
      if (g.AddTransaction fr).2 = g.entries.length then g.entries.length + 1
      else g.entries.length := by
  rw [DepGraph.AddTransaction]
  split <;> simp_all

theorem AddTransaction_entry_self (g : DepGraph) (fr : FeeFrac)
    (hle : firstUnused g.used g.entries.length ≤ g.entries.length) :
    (g.AddTransaction fr).1.entry (firstUnused g.used g.entries.length) =
      ⟨fr, {firstUnused g.used g.entries.length}, {firstUnused g.used g.entries.length}⟩ := by
  show getEntry
    (if firstUnused g.used g.entries.length = g.entries.length
      then g.entries ++ [⟨fr, {firstUnused g.used g.entries.length},
        {firstUnused g.used g.entries.length}⟩]
      else g.entries.set (firstUnused g.used g.entries.length)
        ⟨fr, {firstUnused g.used g.entries.length}, {firstUnused g.used g.entries.length}⟩)
    (firstUnused g.used g.entries.length) = _
  by_cases heq : firstUnused g.used g.entries.length = g.entries.length
  · rw [if_pos heq, heq]
    exact getEntry_append_self _ _
  · rw [if_neg heq]
    exact getEntry_set_self _ _ _ (by omega)

theorem AddTransaction_entry_ne (g : DepGraph) (fr : FeeFrac) {j : ℕ}
    (hj : j ≠ firstUnused g.used g.entries.length) :
    (g.AddTransaction fr).1.entry j = g.entry j := by
  show getEntry
    (if firstUnused g.used g.entries.length = g.entries.length
      then g.entries ++ [⟨fr, {firstUnused g.used g.entries.length},
        {firstUnused g.used g.entries.length}⟩]
      else g.entries.set (firstUnused g.used g.entries.length)
        ⟨fr, {firstUnused g.used g.entries.length}, {firstUnused g.used g.entries.length}⟩)
    j = getEntry g.entries j
  by_cases heq : firstUnused g.used g.entries.length = g.entries.length
  · rw [if_pos heq]
    rcases Nat.lt_or_ge j g.entries.length with hlt | hge
    · exact getEntry_append_lt _ _ _ hlt
    · rw [getEntry_of_length_le _ _ (by simp; omega), getEntry_of_length_le _ _ hge]
  · rw [if_neg heq]
    exact getEntry_set_ne _ _ _ _ hj

theorem RemoveTransactions_used (g : DepGraph) (del : Finset ℕ) :
    (g.RemoveTransactions del).used = g.used \ del := rfl

theorem RemoveTransactions_entry (g : DepGraph) (del : Finset ℕ) {i : ℕ}
    (hi : i ∈ g.used \ del) :
    (g.RemoveTransactions del).entry i =
      { g.entry i with
        ancestors := (g.entry i).ancestors ∩ (g.used \ del)
        descendants := (g.entry i).descendants ∩ (g.used \ del) } := by
  show getEntry _ _ = _
  rw [DepGraph.RemoveTransactions]
  simp only
  rw [getEntry_map _ (by simp [defaultEntry]) _ i]
  rcases Nat.lt_or_ge i g.entries.length with hlt | hge
  · rw [trimTrailing_getEntry g.entries _ (trimTrailing_keeps g.entries _ hi hlt)]
    rfl
  · rw [getEntry_of_length_le _ _ ((trimTrailing_length_le _ _).trans hge),
      show DepGraph.entry g i = getEntry g.entries i from rfl,
      getEntry_of_length_le _ _ hge]

theorem AddDependencies_used (g : DepGraph) (parents : Finset ℕ) (child : ℕ) :
    (g.AddDependencies parents child).used = g.used := by
  rw [DepGraph.AddDependencies]
  split <;> rfl

theorem AddDependencies_length (g : DepGraph) (parents : Finset ℕ) (child : ℕ) :
    (g.AddDependencies parents child).entries.length = g.entries.length := by
  rw [DepGraph.AddDependencies]
  split
  · rfl
  · exact updateEntries_length _ _ _

theorem AddDependencies_entry (g : DepGraph) (parents : Finset ℕ) (child : ℕ) {i : ℕ}
    (hi : i < g.entries.length) :
    (g.AddDependencies parents child).entry i =
      { g.entry i with
        descendants := if i ∈ parAncOf g parents child
          then (g.entry i).descendants ∪ g.Descendants child else (g.entry i).descendants
        ancestors := if i ∈ g.Descendants child
          then (g.entry i).ancestors ∪ parAncOf g parents child else (g.entry i).ancestors } := by
  show getEntry _ _ = _
  rw [DepGraph.AddDependencies]
  split
  · next hempty =>
    rw [hempty]
    show getEntry g.entries i = _
    simp only [Finset.not_mem_empty, if_false, Finset.union_empty]
    split <;> simp [DepGraph.entry]
  · simp only
    rw [getEntry_updateEntries _ 0 g.entries i hi]
    simp [DepGraph.entry]

theorem AddDependencies_Ancestors (g : DepGraph) (parents : Finset ℕ) (child : ℕ) {i : ℕ}
    (hi : i < g.entries.length) :
    (g.AddDependencies parents child).Ancestors i =
      if i ∈ g.Descendants child then g.Ancestors i ∪ parAncOf g parents child
      else g.Ancestors i := by
  rw [DepGraph.Ancestors, AddDependencies_entry g parents child hi]
  rfl

theorem AddDependencies_Descendants (g : DepGraph) (parents : Finset ℕ) (child : ℕ) {i : ℕ}
    (hi : i < g.entries.length) :
    (g.AddDependencies parents child).Descendants i =
      if i ∈ parAncOf g parents child then g.Descendants i ∪ g.Descendants child
      else g.Descendants i := by
  rw [DepGraph.Descendants, AddDependencies_entry g parents child hi]
  rfl

theorem RemoveTransactions_Ancestors (g : DepGraph) (del : Finset ℕ) {i : ℕ}
    (hi : i ∈ g.used \ del) :
    (g.RemoveTransactions del).Ancestors i = g.Ancestors i ∩ (g.used \ del) := by
  rw [DepGraph.Ancestors, RemoveTransactions_entry g del hi]
  rfl

theorem RemoveTransactions_Descendants (g : DepGraph) (del : Finset ℕ) {i : ℕ}
    (hi : i ∈ g.used \ del) :
    (g.RemoveTransactions del).Descendants i = g.Descendants i ∩ (g.used \ del) := by
  rw [DepGraph.Descendants, RemoveTransactions_entry g del hi]
  rfl

theorem RemoveTransactions_FeeRate (g : DepGraph) (del : Finset ℕ) {i : ℕ}
    (hi : i ∈ g.used \ del) :
    (g.RemoveTransactions del).FeeRate i = g.FeeRate i := by
  rw [DepGraph.FeeRate, RemoveTransactions_entry g del hi]
  rfl

/-! ## Mutation sequences (for the DepGraph invariant claims) -/

/-- One public mutation of a `DepGraph`. -/
inductive DGOp where
  | addTx (fr : FeeFrac)
  | addDeps (parents : Finset ℕ) (child : ℕ)
  | remove (del : Finset ℕ)

/-- Apply one mutation. -/
def DGOp.apply (g : DepGraph) : DGOp → DepGraph
  | .addTx fr => (g.AddTransaction fr).1
  | .addDeps ps c => g.AddDependencies ps c
  | .remove del => g.RemoveTransactions del

/-- Run a sequence of mutations starting from the empty graph. -/
def runOps (ops : List DGOp) : DepGraph := ops.foldl DGOp.apply DepGraph.empty

/-- The preconditions the claim puts on a call: `AddDependencies` is invoked
with `parents ⊆ Positions()` and a live child (the code's `Assume`s). -/
def validOp (g : DepGraph) : DGOp → Bool
  | .addDeps ps c => decide (ps ⊆ g.used) && decide (c ∈ g.used)
  | _ => true

/-- Validity of a whole call sequence from a given graph. -/
def validFrom (g : DepGraph) : List DGOp → Bool
  | [] => true
  | op :: rest => validOp g op && validFrom (op.apply g) rest

/-- A call is acyclicity-guarded when no parent passed to `AddDependencies`
is already a proper descendant of the child. -/
def guardedOp (g : DepGraph) : DGOp → Bool
  | .addDeps ps c => decide (ps ∩ ((g.Descendants c).erase c) = ∅)
  | _ => true

/-- Acyclicity-guardedness of a whole call sequence from a given graph. -/
def guardedFrom (g : DepGraph) : List DGOp → Bool
  | [] => true
  | op :: rest => guardedOp g op && guardedFrom (op.apply g) rest

/-- Executable check that the ancestor and descendant closures of a graph are
mutually consistent: for all live i and j, j ∈ Ancestors(i) iff
i ∈ Descendants(j). -/
def mutuallyConsistent (g : DepGraph) : Bool :=
  (sortAsc g.used).all fun i => (sortAsc g.used).all fun j =>
    decide (j ∈ g.Ancestors i ↔ i ∈ g.Descendants j)

theorem mutuallyConsistent_iff (g : DepGraph) :
    mutuallyConsistent g = true ↔
      ∀ i ∈ g.used, ∀ j ∈ g.used, (j ∈ g.Ancestors i ↔ i ∈ g.Descendants j) := by
  rw [mutuallyConsistent, List.all_eq_true]
  constructor
  · intro h i hi j hj
    have := List.all_eq_true.mp (h i (mem_sortAsc.mpr hi)) j (mem_sortAsc.mpr hj)
    exact of_decide_eq_true this
  · intro h i hi
    rw [List.all_eq_true]
    intro j hj
    exact decide_eq_true (h i (mem_sortAsc.mp hi) j (mem_sortAsc.mp hj))

theorem isAcyclic_iff (g : DepGraph) :
    g.IsAcyclic = true ↔ ∀ i ∈ g.used, g.Ancestors i ∩ g.Descendants i = {i} := by
  rw [DepGraph.IsAcyclic, List.all_eq_true]
  constructor
  · intro h i hi
    have := h i (mem_sortAsc.mpr hi)
    exact eq_of_beq this
  · intro h i hi
    exact beq_iff_eq.mpr (h i (mem_sortAsc.mp hi))

/-! ## The DepGraph well-formedness invariant -/

/-- Invariant maintained by every valid mutation sequence: live positions fit
inside the entries vector, closures are reflexive on and confined to the live
set, and ancestors/descendants are mutually consistent. -/
structure WF (g : DepGraph) : Prop where
  used_lt : ∀ i ∈ g.used, i < g.entries.length
  refl_anc : ∀ i ∈ g.used, i ∈ g.Ancestors i
  refl_desc : ∀ i ∈ g.used, i ∈ g.Descendants i
  anc_sub : ∀ i ∈ g.used, g.Ancestors i ⊆ g.used
  desc_sub : ∀ i ∈ g.used, g.Descendants i ⊆ g.used
  mutual_cons : ∀ i ∈ g.used, ∀ j ∈ g.used, (j ∈ g.Ancestors i ↔ i ∈ g.Descendants j)

/-- Additional invariant of acyclicity-guarded sequences: ancestor closures
are transitively closed and the graph is acyclic. -/
structure WFA (g : DepGraph) extends WF g : Prop where
  anc_trans : ∀ i ∈ g.used, ∀ j ∈ g.Ancestors i, g.Ancestors j ⊆ g.Ancestors i
  acyclic : ∀ i ∈ g.used, g.Ancestors i ∩ g.Descendants i = {i}

theorem WFA.desc_trans {g : DepGraph} (h : WFA g) :
    ∀ i ∈ g.used, ∀ j ∈ g.Descendants i, g.Descendants j ⊆ g.Descendants i := by
  intro i hi j hj x hx
  have hjl : j ∈ g.used := h.desc_sub i hi hj
  have hxl : x ∈ g.used := h.desc_sub j hjl hx
  have hjx : j ∈ g.Ancestors x := (h.mutual_cons x hxl j hjl).mpr hx
  have hij : i ∈ g.Ancestors j := (h.mutual_cons j hjl i hi).mpr hj
  have : i ∈ g.Ancestors x := h.anc_trans x hxl j hjx hij
  exact (h.mutual_cons x hxl i hi).mp this

theorem WF_empty : WF DepGraph.empty := by
  constructor <;> intro i hi <;> simp [DepGraph.empty] at hi

theorem WFA_empty : WFA DepGraph.empty := by
  refine ⟨WF_empty, ?_, ?_⟩ <;> intro i hi <;> simp [DepGraph.empty] at hi

/-! ## Preservation of the invariants by the mutations -/

theorem AddTransaction_Ancestors_self {g : DepGraph} (h : ∀ i ∈ g.used, i < g.entries.length)
    (fr : FeeFrac) :
    (g.AddTransaction fr).1.Ancestors (firstUnused g.used g.entries.length) =
      {firstUnused g.used g.entries.length} := by
  rw [DepGraph.Ancestors, AddTransaction_entry_self g fr (firstUnused_spec h).2.1]

theorem AddTransaction_Descendants_self {g : DepGraph} (h : ∀ i ∈ g.used, i < g.entries.length)
    (fr : FeeFrac) :
    (g.AddTransaction fr).1.Descendants (firstUnused g.used g.entries.length) =
      {firstUnused g.used g.entries.length} := by
  rw [DepGraph.Descendants, AddTransaction_entry_self g fr (firstUnused_spec h).2.1]

theorem AddTransaction_Ancestors_ne (g : DepGraph) (fr : FeeFrac) {j : ℕ}
    (hj : j ≠ firstUnused g.used g.entries.length) :
    (g.AddTransaction fr).1.Ancestors j = g.Ancestors j := by
  rw [DepGraph.Ancestors, AddTransaction_entry_ne g fr hj]; rfl

theorem AddTransaction_Descendants_ne (g : DepGraph) (fr : FeeFrac) {j : ℕ}
    (hj : j ≠ firstUnused g.used g.entries.length) :
    (g.AddTransaction fr).1.Descendants j = g.Descendants j := by
  rw [DepGraph.Descendants, AddTransaction_entry_ne g fr hj]; rfl

theorem length_le_AddTransaction (g : DepGraph) (fr : FeeFrac) :
    g.entries.length ≤ (g.AddTransaction fr).1.entries.length ∧
      (firstUnused g.used g.entries.length = g.entries.length →
        (g.AddTransaction fr).1.entries.length = g.entries.length + 1) ∧
      (firstUnused g.used g.entries.length ≠ g.entries.length →
        (g.AddTransaction fr).1.entries.length = g.entries.length) := by
  have hl := AddTransaction_length g fr
  rw [AddTransaction_idx] at hl
  by_cases hc : firstUnused g.used g.entries.length = g.entries.length
  · rw [if_pos hc] at hl
    exact ⟨by omega, fun _ => hl, fun hn => absurd hc hn⟩
  · rw [if_neg hc] at hl
    exact ⟨by omega, fun hn => absurd hn hc, fun _ => hl⟩

theorem WF_addTx {g : DepGraph} (h : WF g) (fr : FeeFrac) : WF (g.AddTransaction fr).1 := by
  have hspec := firstUnused_spec h.used_lt
  set n := firstUnused g.used g.entries.length with hn
  have hused : (g.AddTransaction fr).1.used = insert n g.used := rfl
  have hne : ∀ j ∈ g.used, j ≠ n := fun j hj e => hspec.1 (e ▸ hj)
  have hAs := AddTransaction_Ancestors_self h.used_lt fr
  have hDs := AddTransaction_Descendants_self h.used_lt fr
  have hAn := fun {j} (hj : j ≠ n) => AddTransaction_Ancestors_ne g fr hj
  have hDn := fun {j} (hj : j ≠ n) => AddTransaction_Descendants_ne g fr hj
  have hlen := length_le_AddTransaction g fr
  have hnlt : n < (g.AddTransaction fr).1.entries.length := by
    by_cases hc : n = g.entries.length
    · rw [hlen.2.1 hc]; omega
    · rw [hlen.2.2 hc]; omega
  constructor
  · intro i hi
    rw [hused] at hi
    rcases Finset.mem_insert.mp hi with rfl | hi
    · exact hnlt
    · exact lt_of_lt_of_le (h.used_lt i hi) hlen.1
  · intro i hi
    rw [hused] at hi
    rcases Finset.mem_insert.mp hi with rfl | hi
    · rw [hAs]; exact Finset.mem_singleton_self _
    · rw [hAn (hne i hi)]; exact h.refl_anc i hi
  · intro i hi
    rw [hused] at hi
    rcases Finset.mem_insert.mp hi with rfl | hi
    · rw [hDs]; exact Finset.mem_singleton_self _
    · rw [hDn (hne i hi)]; exact h.refl_desc i hi
  · intro i hi
    rw [hused] at hi
    rcases Finset.mem_insert.mp hi with rfl | hi
    · rw [hAs, hused]
      intro x hx
      rw [Finset.mem_singleton.mp hx]
      exact Finset.mem_insert_self _ _
    · rw [hAn (hne i hi), hused]
      exact (h.anc_sub i hi).trans (Finset.subset_insert n g.used)
  · intro i hi
    rw [hused] at hi
    rcases Finset.mem_insert.mp hi with rfl | hi
    · rw [hDs, hused]
      intro x hx
      rw [Finset.mem_singleton.mp hx]
      exact Finset.mem_insert_self _ _
    · rw [hDn (hne i hi), hused]
      exact (h.desc_sub i hi).trans (Finset.subset_insert n g.used)
  · intro i hi j hj
    rw [hused] at hi hj
    rcases Finset.mem_insert.mp hi with rfl | hi <;> rcases Finset.mem_insert.mp hj with rfl | hj
    · rw [hAs, hDs]
    · rw [hAs, hDn (hne j hj)]
      constructor
      · intro e
        exact absurd (Finset.mem_singleton.mp e) (hne j hj)
      · intro e
        exact absurd (h.desc_sub j hj e) hspec.1
    · rw [hDs, hAn (hne i hi)]
      constructor
      · intro e
        exact absurd (h.anc_sub i hi e) hspec.1
      · intro e
        exact absurd (Finset.mem_singleton.mp e) (hne i hi)
    · rw [hAn (hne i hi), hDn (hne j hj)]
      exact h.mutual_cons i hi j hj

theorem WFA_addTx {g : DepGraph} (h : WFA g) (fr : FeeFrac) : WFA (g.AddTransaction fr).1 := by
  have hspec := firstUnused_spec h.used_lt
  set n := firstUnused g.used g.entries.length with hn
  have hused : (g.AddTransaction fr).1.used = insert n g.used := rfl
  have hne : ∀ j ∈ g.used, j ≠ n := fun j hj e => hspec.1 (e ▸ hj)
  have hAs := AddTransaction_Ancestors_self h.used_lt fr
  have hDs := AddTransaction_Descendants_self h.used_lt fr
  have hAn := fun {j} (hj : j ≠ n) => AddTransaction_Ancestors_ne g fr hj
  have hDn := fun {j} (hj : j ≠ n) => AddTransaction_Descendants_ne g fr hj
  refine ⟨WF_addTx h.toWF fr, ?_, ?_⟩
  · intro i hi j hj
    rw [hused] at hi
    rcases Finset.mem_insert.mp hi with rfl | hi
    · rw [hAs] at hj
      rw [Finset.mem_singleton.mp hj]
    · rw [hAn (hne i hi)] at hj ⊢
      have hjl : j ∈ g.used := h.anc_sub i hi hj
      rw [hAn (hne j hjl)]
      exact h.anc_trans i hi j hj
  · intro i hi
    rw [hused] at hi
    rcases Finset.mem_insert.mp hi with rfl | hi
    · rw [hAs, hDs]; simp
    · rw [hAn (hne i hi), hDn (hne i hi)]
      exact h.acyclic i hi

theorem WF_remove {g : DepGraph} (h : WF g) (del : Finset ℕ) : WF (g.RemoveTransactions del) := by
  have hused : (g.RemoveTransactions del).used = g.used \ del := rfl
  have hmem : ∀ i ∈ g.used \ del, i ∈ g.used := fun i hi => (Finset.mem_sdiff.mp hi).1
  have hlen : (g.RemoveTransactions del).entries.length =
      (trimTrailing g.entries (g.used \ del)).length := by
    rw [DepGraph.RemoveTransactions]; simp
  constructor
  · intro i hi
    rw [hused] at hi
    rw [hlen]
    exact trimTrailing_keeps g.entries _ hi (h.used_lt i (hmem i hi))
  · intro i hi
    rw [hused] at hi
    rw [RemoveTransactions_Ancestors g del hi]
    exact Finset.mem_inter.mpr ⟨h.refl_anc i (hmem i hi), hi⟩
  · intro i hi
    rw [hused] at hi
    rw [RemoveTransactions_Descendants g del hi]
    exact Finset.mem_inter.mpr ⟨h.refl_desc i (hmem i hi), hi⟩
  · intro i hi
    rw [hused] at hi
    rw [RemoveTransactions_Ancestors g del hi, hused]
    exact Finset.inter_subset_right
  · intro i hi
    rw [hused] at hi
    rw [RemoveTransactions_Descendants g del hi, hused]
    exact Finset.inter_subset_right
  · intro i hi j hj
    rw [hused] at hi hj
    rw [RemoveTransactions_Ancestors g del hi, RemoveTransactions_Descendants g del hj,
      Finset.mem_inter, Finset.mem_inter]
    have := h.mutual_cons i (hmem i hi) j (hmem j hj)
    constructor
    · intro hx; exact ⟨this.mp hx.1, hi⟩
    · intro hx; exact ⟨this.mpr hx.1, hj⟩

theorem WFA_remove {g : DepGraph} (h : WFA g) (del : Finset ℕ) :
    WFA (g.RemoveTransactions del) := by
  have hused : (g.RemoveTransactions del).used = g.used \ del := rfl
  have hmem : ∀ i ∈ g.used \ del, i ∈ g.used := fun i hi => (Finset.mem_sdiff.mp hi).1
  refine ⟨WF_remove h.toWF del, ?_, ?_⟩
  · intro i hi j hj
    rw [hused] at hi
    rw [RemoveTransactions_Ancestors g del hi] at hj
    obtain ⟨hja, hju⟩ := Finset.mem_inter.mp hj
    rw [RemoveTransactions_Ancestors g del hi, RemoveTransactions_Ancestors g del hju]
    exact Finset.inter_subset_inter (h.anc_trans i (hmem i hi) j hja) (subset_refl _)
  · intro i hi
    rw [hused] at hi
    rw [RemoveTransactions_Ancestors g del hi, RemoveTransactions_Descendants g del hi]
    ext x
    have hac := Finset.ext_iff.mp (h.acyclic i (hmem i hi)) x
    simp only [Finset.mem_inter, Finset.mem_singleton] at hac ⊢
    constructor
    · intro hx
      exact hac.mp ⟨hx.1.1, hx.2.1⟩
    · intro hx
      subst hx
      exact ⟨⟨h.refl_anc x (hmem x hi), hi⟩, ⟨h.refl_desc x (hmem x hi), hi⟩⟩

theorem parAnc_mem {g : DepGraph} {ps : Finset ℕ} {c : ℕ} {a : ℕ} :
    a ∈ parAncOf g ps c ↔
      (∃ p, (p ∈ ps ∧ p ∉ g.Ancestors c) ∧ a ∈ g.Ancestors p) ∧ a ∉ g.Ancestors c := by
  simp [parAncOf, Finset.mem_sdiff, Finset.mem_biUnion]

theorem parAnc_sub {g : DepGraph} (h : WF g) {ps : Finset ℕ} {c : ℕ} (hps : ps ⊆ g.used) :
    parAncOf g ps c ⊆ g.used := by
  intro a ha
  obtain ⟨⟨p, ⟨hp, -⟩, hap⟩, -⟩ := parAnc_mem.mp ha
  exact h.anc_sub p (hps hp) hap

theorem AddDependencies_mem_Ancestors {g : DepGraph} {ps : Finset ℕ} {c i : ℕ}
    (hi : i < g.entries.length) {x : ℕ} :
    x ∈ (g.AddDependencies ps c).Ancestors i ↔
      x ∈ g.Ancestors i ∨ (i ∈ g.Descendants c ∧ x ∈ parAncOf g ps c) := by
  rw [AddDependencies_Ancestors g ps c hi]
  by_cases hd : i ∈ g.Descendants c
  · simp [hd]
  · simp [hd]

theorem AddDependencies_mem_Descendants {g : DepGraph} {ps : Finset ℕ} {c i : ℕ}
    (hi : i < g.entries.length) {x : ℕ} :
    x ∈ (g.AddDependencies ps c).Descendants i ↔
      x ∈ g.Descendants i ∨ (i ∈ parAncOf g ps c ∧ x ∈ g.Descendants c) := by
  rw [AddDependencies_Descendants g ps c hi]
  by_cases hd : i ∈ parAncOf g ps c
  · simp [hd]
  · simp [hd]

theorem WF_addDeps {g : DepGraph} (h : WF g) {ps : Finset ℕ} {c : ℕ}
    (hps : ps ⊆ g.used) (hc : c ∈ g.used) : WF (g.AddDependencies ps c) := by
  have hused := AddDependencies_used g ps c
  have hlen := AddDependencies_length g ps c
  constructor
  · intro i hi
    rw [hused] at hi
    rw [hlen]
    exact h.used_lt i hi
  · intro i hi
    rw [hused] at hi
    rw [AddDependencies_mem_Ancestors (h.used_lt i hi)]
    exact Or.inl (h.refl_anc i hi)
  · intro i hi
    rw [hused] at hi
    rw [AddDependencies_mem_Descendants (h.used_lt i hi)]
    exact Or.inl (h.refl_desc i hi)
  · intro i hi x hx
    rw [hused] at hi ⊢
    rw [AddDependencies_mem_Ancestors (h.used_lt i hi)] at hx
    rcases hx with hx | ⟨-, hx⟩
    · exact h.anc_sub i hi hx
    · exact parAnc_sub h hps hx
  · intro i hi x hx
    rw [hused] at hi ⊢
    rw [AddDependencies_mem_Descendants (h.used_lt i hi)] at hx
    rcases hx with hx | ⟨-, hx⟩
    · exact h.desc_sub i hi hx
    · exact h.desc_sub c hc hx
  · intro i hi j hj
    rw [hused] at hi hj
    rw [AddDependencies_mem_Ancestors (h.used_lt i hi),
      AddDependencies_mem_Descendants (h.used_lt j hj)]
    have hm := h.mutual_cons i hi j hj
    tauto

theorem key_no_desc {g : DepGraph} (h : WFA g) {ps : Finset ℕ} {c : ℕ} (hps : ps ⊆ g.used)
    (hc : c ∈ g.used) (hguard : ps ∩ ((g.Descendants c).erase c) = ∅) :
    ∀ p ∈ ps, p ∉ g.Ancestors c → ∀ x ∈ g.Ancestors p, x ∉ g.Descendants c := by
  intro p hp hpc x hx hxD
  have hpl : p ∈ g.used := hps hp
  have hxl : x ∈ g.used := h.anc_sub p hpl hx
  have hcx : c ∈ g.Ancestors x := (h.mutual_cons x hxl c hc).mpr hxD
  have hcp : c ∈ g.Ancestors p := h.anc_trans p hpl x hx hcx
  have hpD : p ∈ g.Descendants c := (h.mutual_cons p hpl c hc).mp hcp
  have hpc2 : p ≠ c := fun e => hpc (e ▸ h.refl_anc c hc)
  have hmem : p ∈ ps ∩ ((g.Descendants c).erase c) :=
    Finset.mem_inter.mpr ⟨hp, Finset.mem_erase.mpr ⟨hpc2, hpD⟩⟩
  rw [hguard] at hmem
  exact absurd hmem (Finset.not_mem_empty p)

theorem parAnc_disj_desc {g : DepGraph} (h : WFA g) {ps : Finset ℕ} {c : ℕ} (hps : ps ⊆ g.used)
    (hc : c ∈ g.used) (hguard : ps ∩ ((g.Descendants c).erase c) = ∅) :
    ∀ a ∈ parAncOf g ps c, a ∉ g.Descendants c := by
  intro a ha haD
  obtain ⟨⟨p, ⟨hp, hpc⟩, hap⟩, -⟩ := parAnc_mem.mp ha
  exact key_no_desc h hps hc hguard p hp hpc a hap haD

theorem WFA_addDeps {g : DepGraph} (h : WFA g) {ps : Finset ℕ} {c : ℕ}
    (hps : ps ⊆ g.used) (hc : c ∈ g.used)
    (hguard : ps ∩ ((g.Descendants c).erase c) = ∅) : WFA (g.AddDependencies ps c) := by
  have hkey := key_no_desc h hps hc hguard
  have hAD := parAnc_disj_desc h hps hc hguard
  have hused := AddDependencies_used g ps c
  refine ⟨WF_addDeps h.toWF hps hc, ?_, ?_⟩
  · intro i hi j hj x hx
    rw [hused] at hi
    have hilt := h.used_lt i hi
    rw [AddDependencies_mem_Ancestors hilt] at hj ⊢
    rcases hj with hj | ⟨hiD, hjA⟩
    · have hjl : j ∈ g.used := h.anc_sub i hi hj
      rw [AddDependencies_mem_Ancestors (h.used_lt j hjl)] at hx
      rcases hx with hx | ⟨hjD, hxA⟩
      · exact Or.inl (h.anc_trans i hi j hj hx)
      · have hiD : i ∈ g.Descendants c := by
          have hij : i ∈ g.Descendants j := (h.mutual_cons i hi j hjl).mp hj
          exact h.desc_trans c hc j hjD hij
        exact Or.inr ⟨hiD, hxA⟩
    · have hjl : j ∈ g.used := parAnc_sub h.toWF hps hjA
      have hjD : j ∉ g.Descendants c := hAD j hjA
      rw [AddDependencies_mem_Ancestors (h.used_lt j hjl)] at hx
      rcases hx with hx | ⟨hjD2, -⟩
      · obtain ⟨⟨p, ⟨hp, hpc⟩, hjp⟩, hjc⟩ := parAnc_mem.mp hjA
        have hxp : x ∈ g.Ancestors p := h.anc_trans p (hps hp) j hjp hx
        by_cases hxc : x ∈ g.Ancestors c
        · have hci : c ∈ g.Ancestors i := (h.mutual_cons i hi c hc).mpr hiD
          exact Or.inl (h.anc_trans i hi c hci hxc)
        · exact Or.inr ⟨hiD, parAnc_mem.mpr ⟨⟨p, ⟨hp, hpc⟩, hxp⟩, hxc⟩⟩
      · exact absurd hjD2 hjD
  · intro i hi
    rw [hused] at hi
    have hilt := h.used_lt i hi
    ext x
    rw [Finset.mem_inter, AddDependencies_mem_Ancestors hilt,
      AddDependencies_mem_Descendants hilt, Finset.mem_singleton]
    have hac := Finset.ext_iff.mp (h.acyclic i hi) x
    rw [Finset.mem_inter, Finset.mem_singleton] at hac
    constructor
    · rintro ⟨hxa | ⟨hiD, hxA⟩, hxd | ⟨hiA, hxD⟩⟩
      · exact hac.mp ⟨hxa, hxd⟩
      · obtain ⟨⟨p, ⟨hp, hpc⟩, hip⟩, -⟩ := parAnc_mem.mp hiA
        have hxp : x ∈ g.Ancestors p := h.anc_trans p (hps hp) i hip hxa
        exact absurd hxD (hkey p hp hpc x hxp)
      · have hxD2 : x ∈ g.Descendants c := h.desc_trans c hc i hiD hxd
        exact absurd hxD2 (hAD x hxA)
      · exact absurd hiD (hAD i hiA)
    · rintro rfl
      exact ⟨Or.inl (h.refl_anc _ hi), Or.inl (h.refl_desc _ hi)⟩

/-! ## Invariants along call sequences -/

theorem WF_foldl : ∀ (ops : List DGOp) (g : DepGraph), WF g → validFrom g ops = true →
    WF (ops.foldl DGOp.apply g)
  | [], _, h, _ => h
  | op :: rest, g, h, hv => by
    rw [validFrom, Bool.and_eq_true] at hv
    refine WF_foldl rest (op.apply g) ?_ hv.2
    cases op with
    | addTx fr => exact WF_addTx h fr
    | addDeps ps c =>
      have hval := hv.1
      simp only [validOp, Bool.and_eq_true, decide_eq_true_eq] at hval
      exact WF_addDeps h hval.1 hval.2
    | remove del => exact WF_remove h del

theorem WFA_foldl : ∀ (ops : List DGOp) (g : DepGraph), WFA g → validFrom g ops = true →
    guardedFrom g ops = true → WFA (ops.foldl DGOp.apply g)
  | [], _, h, _, _ => h
  | op :: rest, g, h, hv, hg => by
    rw [validFrom, Bool.and_eq_true] at hv
    rw [guardedFrom, Bool.and_eq_true] at hg
    refine WFA_foldl rest (op.apply g) ?_ hv.2 hg.2
    cases op with
    | addTx fr => exact WFA_addTx h fr
    | addDeps ps c =>
      have hval := hv.1
      have hgrd := hg.1
      simp only [validOp, Bool.and_eq_true, decide_eq_true_eq] at hval
      simp only [guardedOp, decide_eq_true_eq] at hgrd
      exact WFA_addDeps h hval.1 hval.2 hgrd
    | remove del => exact WFA_remove h del

/-- Invariant behind the implicit no-trailing-hole claim: live positions fit
inside the entries vector, and the vector's last entry (if any) is live. -/
structure TrimInv (g : DepGraph) : Prop where
  used_lt : ∀ i ∈ g.used, i < g.entries.length
  last_used : g.entries.length = 0 ∨ (g.entries.length - 1) ∈ g.used

theorem TrimInv_empty : TrimInv DepGraph.empty := by
  constructor
  · intro i hi
    simp [DepGraph.empty] at hi
  · exact Or.inl rfl

theorem TrimInv_addTx {g : DepGraph} (h : TrimInv g) (fr : FeeFrac) :
    TrimInv (g.AddTransaction fr).1 := by
  have hspec := firstUnused_spec h.used_lt
  set n := firstUnused g.used g.entries.length with hn
  have hused : (g.AddTransaction fr).1.used = insert n g.used := rfl
  have hlen := length_le_AddTransaction g fr
  constructor
  · intro i hi
    rw [hused] at hi
    rcases Finset.mem_insert.mp hi with rfl | hi
    · by_cases hc : n = g.entries.length
      · rw [hlen.2.1 hc]; omega
      · rw [hlen.2.2 hc]; omega
    · exact lt_of_lt_of_le (h.used_lt i hi) hlen.1
  · by_cases hc : n = g.entries.length
    · right
      rw [hlen.2.1 hc, hused]
      have he : g.entries.length + 1 - 1 = n := by omega
      rw [he]
      exact Finset.mem_insert_self n g.used
    · rcases h.last_used with h0 | hl
      · exfalso
        apply hc
        omega
      · right
        rw [hlen.2.2 hc, hused]
        exact Finset.mem_insert_of_mem hl

theorem TrimInv_remove {g : DepGraph} (h : TrimInv g) (del : Finset ℕ) :
    TrimInv (g.RemoveTransactions del) := by
  have hused : (g.RemoveTransactions del).used = g.used \ del := rfl
  have hlen : (g.RemoveTransactions del).entries.length =
      (trimTrailing g.entries (g.used \ del)).length := by
    rw [DepGraph.RemoveTransactions]; simp
  constructor
  · intro i hi
    rw [hused] at hi
    rw [hlen]
    exact trimTrailing_keeps g.entries _ hi (h.used_lt i (Finset.mem_sdiff.mp hi).1)
  · rcases trimTrailing_last_used g.entries (g.used \ del) with ht | ht
    · left; rw [hlen, ht]; rfl
    · right; rw [hlen, hused]; exact ht

theorem TrimInv_addDeps {g : DepGraph} (h : TrimInv g) (ps : Finset ℕ) (c : ℕ) :
    TrimInv (g.AddDependencies ps c) := by
  have hused := AddDependencies_used g ps c
  have hlen := AddDependencies_length g ps c
  constructor
  · intro i hi
    rw [hused] at hi
    rw [hlen]
    exact h.used_lt i hi
  · rw [hused, hlen]
    exact h.last_used

theorem TrimInv_foldl : ∀ (ops : List DGOp) (g : DepGraph), TrimInv g →
    TrimInv (ops.foldl DGOp.apply g)
  | [], _, h => h
  | op :: rest, g, h => by
    refine TrimInv_foldl rest (op.apply g) ?_
    cases op with
    | addTx fr => exact TrimInv_addTx h fr
    | addDeps ps c => exact TrimInv_addDeps h ps c
    | remove del => exact TrimInv_remove h del

/-! ## Chunk monotonicity -/

theorem chunkAbsorb_chain (nc : FeeFrac) :
    ∀ acc : List FeeFrac, List.Chain' (fun a b => FeeRateGT a b = false) acc →
      List.Chain' (fun a b => FeeRateGT a b = false) (chunkAbsorb nc acc)
  | [], _ => List.chain'_singleton nc
  | h :: t, hc => by
    rw [chunkAbsorb]
    by_cases hgt : FeeRateGT nc h = true
    · rw [if_pos hgt]
      exact chunkAbsorb_chain (nc + h) t hc.tail
    · rw [if_neg hgt]
      exact List.chain'_cons.mpr ⟨by simpa using hgt, hc⟩

theorem chunkFold_chain (g : DepGraph) :
    ∀ (lin : List ℕ) (acc : List FeeFrac),
      List.Chain' (fun a b => FeeRateGT a b = false) acc →
      List.Chain' (fun a b => FeeRateGT a b = false)
        (lin.foldl (fun acc i => chunkAbsorb (g.FeeRate i) acc) acc)
  | [], _, h => h
  | _ :: rest, acc, h => chunkFold_chain g rest _ (chunkAbsorb_chain _ acc h)

/-- The chunk feerates of any linearization are non-increasing: no chunk's
feerate is strictly higher than its predecessor's. -/
theorem ChunkLinearization_nonincreasing (g : DepGraph) (lin : List ℕ) :
    List.Chain' (fun a b => FeeRateGT b a = false) (ChunkLinearization g lin) := by
  rw [ChunkLinearization, List.chain'_reverse]
  exact chunkFold_chain g lin [] List.chain'_nil

/-- Executable check that a feerate sequence is strictly decreasing: each
element has strictly higher feerate than the next. -/
def strictlyDecreasing : List FeeFrac → Bool
  | [] => true
  | [_] => true
  | a :: b :: t => FeeRateGT a b && strictlyDecreasing (b :: t)

/-- Executable check that a feerate sequence is non-increasing: no element
has strictly higher feerate than its predecessor. -/
def feeratesNonIncreasing : List FeeFrac → Bool
  | [] => true
  | [_] => true
  | a :: b :: t => !FeeRateGT b a && feeratesNonIncreasing (b :: t)

theorem feeratesNonIncreasing_iff : ∀ l : List FeeFrac,
    feeratesNonIncreasing l = true ↔ List.Chain' (fun a b => FeeRateGT b a = false) l
  | [] => by simp [feeratesNonIncreasing]
  | [a] => by simp [feeratesNonIncreasing]
  | a :: b :: t => by
    rw [feeratesNonIncreasing, Bool.and_eq_true, List.chain'_cons,
      feeratesNonIncreasing_iff (b :: t), Bool.not_eq_true']

/-! ## Claim C7 -/

/-- A mutation sequence that creates a two-transaction dependency cycle while
satisfying the claimed preconditions (parents ⊆ Positions(), live child). -/
def cycleOps : List DGOp :=
  [DGOp.addTx ⟨1, 1⟩, DGOp.addTx ⟨1, 1⟩, DGOp.addDeps {0} 1, DGOp.addDeps {1} 0]

/-- Claim C7, counterexample: the sequence AddTransaction, AddTransaction,
AddDependencies({0}, 1), AddDependencies({1}, 0) satisfies every precondition
stated in the claim (parents ⊆ Positions(), live child), yet afterwards
IsAcyclic() returns false — the claim's "IsAcyclic() returns true" part is
false as stated. -/
theorem C7_counterexample :
    validFrom DepGraph.empty cycleOps = true ∧ (runOps cycleOps).IsAcyclic = false := by
  decide

/-- Claim C7 (amended): after any finite sequence of AddTransaction,
AddDependencies (with parents ⊆ Positions() and a live child) and
RemoveTransactions calls starting from the empty DepGraph, the stored
closures are mutually consistent — for all live i and j, j ∈ Ancestors(i)
iff i ∈ Descendants(j) — and, provided additionally that no AddDependencies
call passes a parent that is already a proper descendant of its child,
IsAcyclic() returns true. -/
theorem C7_amended (ops : List DGOp) (hv : validFrom DepGraph.empty ops = true) :
    mutuallyConsistent (runOps ops) = true ∧
      (guardedFrom DepGraph.empty ops = true → (runOps ops).IsAcyclic = true) := by
  have hwf : WF (runOps ops) := WF_foldl ops DepGraph.empty WF_empty hv
  constructor
  · exact (mutuallyConsistent_iff _).mpr hwf.mutual_cons
  · intro hg
    have hwfa : WFA (runOps ops) := WFA_foldl ops DepGraph.empty WFA_empty hv hg
    exact (isAcyclic_iff _).mpr hwfa.acyclic

/-- Witness for C7 (amended): a concrete valid and guarded sequence on which
the amended claim's conclusions hold. -/
theorem C7_witness :
    mutuallyConsistent
        (runOps [DGOp.addTx ⟨1, 1⟩, DGOp.addTx ⟨2, 1⟩, DGOp.addDeps {0} 1]) = true ∧
      (runOps [DGOp.addTx ⟨1, 1⟩, DGOp.addTx ⟨2, 1⟩, DGOp.addDeps {0} 1]).IsAcyclic = true :=
  ⟨(C7_amended _ (by decide)).1, (C7_amended _ (by decide)).2 (by decide)⟩

/-! ## Claim C8 -/

/-- Claim C8: after RemoveTransactions(S), Positions() equals the old
Positions() minus S; every surviving transaction keeps its feerate; and every
surviving transaction's ancestor and descendant sets equal their old values
intersected with the new Positions().  (In particular an ancestor reachable
only through a removed intermediate stays an ancestor.) -/
theorem C8_theorem (g : DepGraph) (S : Finset ℕ) :
    (g.RemoveTransactions S).Positions = g.Positions \ S ∧
      ∀ i ∈ (g.RemoveTransactions S).Positions,
        (g.RemoveTransactions S).FeeRate i = g.FeeRate i ∧
        (g.RemoveTransactions S).Ancestors i =
          g.Ancestors i ∩ (g.RemoveTransactions S).Positions ∧
        (g.RemoveTransactions S).Descendants i =
          g.Descendants i ∩ (g.RemoveTransactions S).Positions :=
  ⟨rfl, fun _ hi =>
    ⟨RemoveTransactions_FeeRate g S hi, RemoveTransactions_Ancestors g S hi,
      RemoveTransactions_Descendants g S hi⟩⟩

/-- The graph 0 ← 1 ← 2 (position 1 an intermediate), used to witness C8. -/
def chainGraph : DepGraph :=
  runOps [DGOp.addTx ⟨1, 1⟩, DGOp.addTx ⟨2, 1⟩, DGOp.addTx ⟨3, 1⟩,
    DGOp.addDeps {0} 1, DGOp.addDeps {1} 2]

/-- Witness for C8: removing the intermediate transaction 1 of a chain
0 ← 1 ← 2 keeps 0 an ancestor of 2. -/
theorem C8_witness :
    (chainGraph.RemoveTransactions {1}).Positions = chainGraph.Positions \ {1} ∧
      (chainGraph.RemoveTransactions {1}).Ancestors 2 =
        chainGraph.Ancestors 2 ∩ (chainGraph.RemoveTransactions {1}).Positions ∧
      0 ∈ (chainGraph.RemoveTransactions {1}).Ancestors 2 :=
  ⟨(C8_theorem chainGraph {1}).1,
    ((C8_theorem chainGraph {1}).2 2 (by decide)).2.1, by decide⟩

/-! ## Claim C10 -/

/-- Claim C10: every DepGraph reachable from the empty graph through the
three mutations has no unused trailing position: PositionRange() is 0 when
TxCount() is 0, and Positions().Last() + 1 otherwise. -/
theorem C10_theorem (ops : List DGOp) :
    ((runOps ops).TxCount = 0 → (runOps ops).PositionRange = 0) ∧
      ((runOps ops).TxCount ≠ 0 →
        (runOps ops).PositionRange = setLast (runOps ops).Positions + 1) := by
  have h : TrimInv (runOps ops) := TrimInv_foldl ops DepGraph.empty TrimInv_empty
  constructor
  · intro h0
    have hempty : (runOps ops).used = ∅ := Finset.card_eq_zero.mp h0
    rcases h.last_used with hl | hl
    · exact hl
    · rw [hempty] at hl
      exact absurd hl (Finset.not_mem_empty _)
  · intro hne
    have hnonempty : (runOps ops).used.Nonempty :=
      Finset.card_pos.mp (Nat.pos_of_ne_zero hne)
    rcases h.last_used with hl | hl
    · exfalso
      obtain ⟨x, hx⟩ := hnonempty
      have := h.used_lt x hx
      omega
    · have h1 : (runOps ops).entries.length - 1 ≤ setLast (runOps ops).used := le_setLast hl
      have h2 : setLast (runOps ops).used < (runOps ops).entries.length :=
        h.used_lt _ (setLast_mem hnonempty)
      have h3 : (runOps ops).entries.length ≠ 0 := by
        intro h0
        obtain ⟨x, hx⟩ := hnonempty
        have := h.used_lt x hx
        omega
      show (runOps ops).entries.length = setLast (runOps ops).used + 1
      omega

/-- Witness for C10: a concrete sequence leaving a trailing live position. -/
theorem C10_witness :
    (runOps [DGOp.addTx ⟨1, 1⟩, DGOp.addTx ⟨1, 1⟩, DGOp.remove {0}]).TxCount ≠ 0 ∧
      (runOps [DGOp.addTx ⟨1, 1⟩, DGOp.addTx ⟨1, 1⟩, DGOp.remove {0}]).PositionRange =
        setLast (runOps [DGOp.addTx ⟨1, 1⟩, DGOp.addTx ⟨1, 1⟩, DGOp.remove {0}]).Positions + 1 :=
  ⟨by decide, (C10_theorem _).2 (by decide)⟩

/-! ## SpanningForestState

The spanning-forest linearization state machine.  `VecDeque` FIFOs are
modelled as `List`s (front = head; modelled from the spec as
`util/vecdeque.h` is not in the source tree, but a FIFO's semantics are
forced).  `SetIdx`/`TxIdx` are naturals and INVALID_SET_IDX is `Option.none`.
Loops whose termination rests on the state invariants carry an explicit fuel
argument chosen large enough that, on states satisfying those invariants,
the fuel never runs out (each merge removes a chunk and each queue pop
shortens the queue). -/

/-- `SetInfo`: a set of transactions together with their combined feerate. -/
structure SetInfo where
  transactions : Finset ℕ
  feerate : FeeFrac
deriving DecidableEq

/-- `SetInfo::operator|=` (union of disjoint sets; feerates add). -/
def SetInfo.or (a b : SetInfo) : SetInfo := ⟨a.transactions ∪ b.transactions, a.feerate + b.feerate⟩

/-- `SetInfo::operator-=` (subtraction of a subset; feerates subtract). -/
def SetInfo.sub (a b : SetInfo) : SetInfo := ⟨a.transactions \ b.transactions, a.feerate - b.feerate⟩

/-- Per-transaction data of the spanning-forest state (`TxData`). -/
structure TxData where
  depTopIdx : List ℕ
  parents : Finset ℕ
  children : Finset ℕ
  activeChildren : Finset ℕ
  chunkIdx : ℕ
deriving DecidableEq

/-- The default-constructed `TxData` (holes; never read for live data). -/
def defaultTxData : TxData := ⟨[], ∅, ∅, ∅, 0⟩

/-- The spanning-forest linearization state (`SpanningForestState`). -/
structure SpanningForestState where
  rng : ℕ
  graph : DepGraph
  transactionIdxs : Finset ℕ
  chunkIdxs : Finset ℕ
  suboptimalIdxs : Finset ℕ
  txData : List TxData
  setInfo : List SetInfo
  reachable : List (Finset ℕ × Finset ℕ)
  suboptimalChunks : List ℕ
  nonminimalChunks : List (ℕ × ℕ × ℕ)
  cost : ℕ
deriving DecidableEq

namespace SpanningForestState

/-- Read a transaction's data. -/
def txd (s : SpanningForestState) (i : ℕ) : TxData := s.txData.getD i defaultTxData

/-- Read a set-info slot. -/
def sinfo (s : SpanningForestState) (i : ℕ) : SetInfo := s.setInfo.getD i ⟨∅, FeeFrac.zero⟩

/-- Read a chunk's reachable (upward, downward) sets. -/
def reach (s : SpanningForestState) (i : ℕ) : Finset ℕ × Finset ℕ := s.reachable.getD i (∅, ∅)

/-- Update a transaction's data in place. -/
def modTxd (s : SpanningForestState) (i : ℕ) (f : TxData → TxData) : SpanningForestState :=
  { s with txData := s.txData.set i (f (s.txd i)) }

/-- Update a set-info slot in place. -/
def modSinfo (s : SpanningForestState) (i : ℕ) (f : SetInfo → SetInfo) : SpanningForestState :=
  { s with setInfo := s.setInfo.set i (f (s.sinfo i)) }

/-- Overwrite a chunk's reachable sets. -/
def setReach (s : SpanningForestState) (i : ℕ) (v : Finset ℕ × Finset ℕ) : SpanningForestState :=
  { s with reachable := s.reachable.set i v }

/-- `m_rng.rand64()`. -/
def rand64 (s : SpanningForestState) : ℕ × SpanningForestState :=
  let (v, r) := rngNext s.rng
  (v, { s with rng := r })

/-- `m_rng.randrange(n)`. -/
def randRange (s : SpanningForestState) (n : ℕ) : ℕ × SpanningForestState :=
  let (v, r) := rngRange s.rng n
  (v, { s with rng := r })

/-- `m_rng.randbool()`. -/
def randBool (s : SpanningForestState) : Bool × SpanningForestState :=
  let (v, r) := rngBool s.rng
  (v, { s with rng := r })

/-- `m_rng.randbits<1>()`. -/
def randBits1 (s : SpanningForestState) : ℕ × SpanningForestState :=
  let (v, r) := rngBits1 s.rng
  (v, { s with rng := r })

/-- `PickRandomTx`: the pos-th member of the set in ascending order, where
pos is uniform below the set's size. -/
def PickRandomTx (s : SpanningForestState) (txIdxs : Finset ℕ) : ℕ × SpanningForestState :=
  let (pos, s1) := s.randRange txIdxs.card
  ((sortAsc txIdxs).getD pos 0, s1)

/-- The constructor: every live transaction becomes a singleton chunk;
reduced parents/children are precomputed; reachable sets start as the
singleton's parents and children. -/
def init (g : DepGraph) (rngSeed : ℕ) : SpanningForestState :=
  let base : SpanningForestState :=
    { rng := rngSeed
      graph := g
      transactionIdxs := g.used
      chunkIdxs := ∅
      suboptimalIdxs := ∅
      txData := List.replicate g.PositionRange ⟨List.replicate g.PositionRange 0, ∅, ∅, ∅, 0⟩
      setInfo := List.replicate g.TxCount ⟨∅, FeeFrac.zero⟩
      reachable := List.replicate g.TxCount (∅, ∅)
      suboptimalChunks := []
      nonminimalChunks := []
      cost := 0 }
  let s1 := ((sortAsc g.used).foldl (fun (acc : SpanningForestState × ℕ) tx =>
    let (s, numChunks) := acc
    let parents := g.GetReducedParents tx
    let s := s.modTxd tx fun td => { td with parents := parents, chunkIdx := numChunks }
    let s := (sortAsc parents).foldl
      (fun s p => s.modTxd p fun td => { td with children := insert tx td.children }) s
    let s := s.modSinfo numChunks fun _ => ⟨{tx}, g.FeeRate tx⟩
    (s, numChunks + 1)) (base, 0)).1
  let s2 := (List.range g.TxCount).foldl (fun s ci =>
    let td := s.txd (setFirst (s.sinfo ci).transactions)
    s.setReach ci (td.parents, td.children)) s1
  { s2 with chunkIdxs := Finset.range g.TxCount }

/-- `Activate(parent, child)`: merge the parent's chunk into the child's,
update every affected dependency top set, and turn the old parent chunk slot
into the new dependency's top set.  Returns the merged chunk index. -/
def Activate (s0 : SpanningForestState) (parentIdx childIdx : ℕ) : ℕ × SpanningForestState :=
  let parentChunkIdx := (s0.txd parentIdx).chunkIdx
  let childChunkIdx := (s0.txd childIdx).chunkIdx
  let topTxs := sortAsc (s0.sinfo parentChunkIdx).transactions
  let s1 := topTxs.foldl (fun s tx =>
    let s := s.modTxd tx fun td => { td with chunkIdx := childChunkIdx }
    (sortAsc (s.txd tx).activeChildren).foldl (fun s depChild =>
      let dti := (s.txd tx).depTopIdx.getD depChild 0
      if parentIdx ∈ (s.sinfo dti).transactions
      then s.modSinfo dti fun si => si.or (s.sinfo childChunkIdx)
      else s) s) s0
  let bottomTxs := sortAsc (s1.sinfo childChunkIdx).transactions
  let s2 := bottomTxs.foldl (fun s tx =>
    (sortAsc (s.txd tx).activeChildren).foldl (fun s depChild =>
      let dti := (s.txd tx).depTopIdx.getD depChild 0
      if childIdx ∈ (s.sinfo dti).transactions
      then s.modSinfo dti fun si => si.or (s.sinfo parentChunkIdx)
      else s) s) s1
  let s3 := s2.modSinfo childChunkIdx fun si => si.or (s2.sinfo parentChunkIdx)
  let s4 := { s3 with cost := s3.cost + (s3.sinfo childChunkIdx).transactions.card }
  let pr := s4.reach parentChunkIdx
  let br := s4.reach childChunkIdx
  let bt := (s4.sinfo childChunkIdx).transactions
  let s5 := s4.setReach childChunkIdx ((br.1 ∪ pr.1) \ bt, (br.2 ∪ pr.2) \ bt)
  let s6 := s5.modTxd parentIdx fun td =>
    { td with depTopIdx := td.depTopIdx.set childIdx parentChunkIdx
              activeChildren := insert childIdx td.activeChildren }
  let s7 := { s6 with chunkIdxs := s6.chunkIdxs.erase parentChunkIdx }
  (childChunkIdx, s7)

/-- `Deactivate(parent, child)`: split the chunk along the active dependency,
the stored top set becoming the parent chunk, and recompute both chunks'
reachable sets.  Returns (parent chunk index, child chunk index). -/
def Deactivate (s0 : SpanningForestState) (parentIdx childIdx : ℕ) :
    (ℕ × ℕ) × SpanningForestState :=
  let parentChunkIdx := (s0.txd parentIdx).depTopIdx.getD childIdx 0
  let childChunkIdx := (s0.txd parentIdx).chunkIdx
  let s1 := s0.modTxd parentIdx fun td =>
    { td with activeChildren := td.activeChildren.erase childIdx }
  let s2 := { s1 with chunkIdxs := insert parentChunkIdx s1.chunkIdxs }
  let s3 := { s2 with cost := s2.cost + (s2.sinfo childChunkIdx).transactions.card }
  let s4 := s3.modSinfo childChunkIdx fun si => si.sub (s3.sinfo parentChunkIdx)
  let topTxs := sortAsc (s4.sinfo parentChunkIdx).transactions
  let r1 := topTxs.foldl (fun (acc : SpanningForestState × Finset ℕ × Finset ℕ) tx =>
    let (s, tp, tc) := acc
    let s := s.modTxd tx fun td => { td with chunkIdx := parentChunkIdx }
    let td := s.txd tx
    let s := (sortAsc td.activeChildren).foldl (fun s depChild =>
      let dti := td.depTopIdx.getD depChild 0
      if parentIdx ∈ (s.sinfo dti).transactions
      then s.modSinfo dti fun si => si.sub (s.sinfo childChunkIdx)
      else s) s
    (s, tp ∪ td.parents, tc ∪ td.children)) (s4, ∅, ∅)
  let s5 := r1.1
  let bottomTxs := sortAsc (s5.sinfo childChunkIdx).transactions
  let r2 := bottomTxs.foldl (fun (acc : SpanningForestState × Finset ℕ × Finset ℕ) tx =>
    let (s, bp, bc) := acc
    let td := s.txd tx
    let s := (sortAsc td.activeChildren).foldl (fun s depChild =>
      let dti := td.depTopIdx.getD depChild 0
      if childIdx ∈ (s.sinfo dti).transactions
      then s.modSinfo dti fun si => si.sub (s.sinfo parentChunkIdx)
      else s) s
    (s, bp ∪ td.parents, bc ∪ td.children)) (s5, ∅, ∅)
  let s6 := r2.1
  let tt := (s6.sinfo parentChunkIdx).transactions
  let bt := (s6.sinfo childChunkIdx).transactions
  let s7 := s6.setReach parentChunkIdx (r1.2.1 \ tt, r1.2.2 \ tt)
  let s8 := s7.setReach childChunkIdx (r2.2.1 \ bt, r2.2.2 \ bt)
  ((parentChunkIdx, childChunkIdx), s8)

/-- `MergeChunks(top, bottom)`: activate a uniformly random dependency from
the top chunk to the bottom chunk (iteration: top transactions ascending,
each one's children within the bottom chunk ascending).  Returns `none` only
on states violating the invariant that such a dependency exists. -/
def MergeChunks (s0 : SpanningForestState) (topIdx bottomIdx : ℕ) :
    Option ℕ × SpanningForestState :=
  let topTxs := sortAsc (s0.sinfo topIdx).transactions
  let bottomTxs := (s0.sinfo bottomIdx).transactions
  let deps := (topTxs.map fun tx =>
    (sortAsc ((s0.txd tx).children ∩ bottomTxs)).map fun c => (tx, c)).flatten
  if deps.isEmpty then (none, s0)
  else
    let (pick, s1) := s0.randRange deps.length
    let (p, c) := deps.getD pick (0, 0)
    let (m, s2) := s1.Activate p c
    (some m, s2)

/-- The candidate-scan loop of `PickMergeCandidate`: repeatedly take the
first remaining reachable transaction, look at its chunk, remove that
chunk's transactions, and keep the best (lowest-feerate upward /
highest-feerate downward) candidate with random tie-breaks.  (The

first transaction is removed explicitly as well, which is a no-op under the
invariant that a transaction belongs to its chunk.) -/
def pmcLoop (s : SpanningForestState) (downward : Bool) :
    ℕ → Finset ℕ → FeeFrac → Option ℕ → ℕ → Option ℕ × SpanningForestState
  | 0, _, _, bestIdx, _ => (bestIdx, s)
  | fuel + 1, todo, best, bestIdx, bestTie =>
    if todo = ∅ then (bestIdx, s)
    else
      let first := setFirst todo
      let reachedChunkIdx := (s.txd first).chunkIdx
      let reachedInfo := s.sinfo reachedChunkIdx
      let todo2 := (todo.erase first) \ reachedInfo.transactions
      let cmp := if downward then FeeRateCompare best reachedInfo.feerate
                 else FeeRateCompare reachedInfo.feerate best
      if 0 < cmp then s.pmcLoop downward fuel todo2 best bestIdx bestTie
      else
        let (tie, s2) := s.rand64
        if cmp < 0 ∨ bestTie ≤ tie then
          s2.pmcLoop downward fuel todo2 reachedInfo.feerate (some reachedChunkIdx) tie
        else s2.pmcLoop downward fuel todo2 best bestIdx bestTie

/-- `PickMergeCandidate<DownWard>(chunk)`.  The scan's fuel is the number of
remaining reachable transactions plus one, which the loop body always stays
below since every round removes at least the first remaining transaction. -/
def PickMergeCandidate (s : SpanningForestState) (downward : Bool) (chunkIdx : ℕ) :
    Option ℕ × SpanningForestState :=
  let todo := if downward then (s.reach chunkIdx).2 else (s.reach chunkIdx).1
  s.pmcLoop downward (todo.card + 1) todo (s.sinfo chunkIdx).feerate none 0

/-- `MergeStep<DownWard>(chunk)`. -/
def MergeStep (s : SpanningForestState) (downward : Bool) (chunkIdx : ℕ) :
    Option ℕ × SpanningForestState :=
  let (cand, s1) := s.PickMergeCandidate downward chunkIdx
  match cand with
  | none => (none, s1)
  | some m => if downward then s1.MergeChunks chunkIdx m else s1.MergeChunks m chunkIdx

/-- The merge loop of `MergeSequence` (also the loop of `LoadLinearization`):
repeat `MergeStep` until it fails.  Fuel bounds the chunk count, which each
successful merge decreases. -/
def mergeSeqLoop (s : SpanningForestState) (downward : Bool) (chunkIdx : ℕ) :
    ℕ → ℕ × SpanningForestState
  | 0 => (chunkIdx, s)
  | fuel + 1 =>
    let (r, s2) := s.MergeStep downward chunkIdx
    match r with
    | none => (chunkIdx, s2)
    | some m => s2.mergeSeqLoop downward m fuel

/-- `MergeSequence<DownWard>(chunk)`: merge until no longer possible, then
queue the resulting chunk as potentially improvable. -/
def MergeSequence (s0 : SpanningForestState) (downward : Bool) (chunkIdx : ℕ) :
    SpanningForestState :=
  let (c, s1) := s0.mergeSeqLoop downward chunkIdx (s0.setInfo.length + 1)
  if c ∈ s1.suboptimalIdxs then s1
  else { s1 with suboptimalIdxs := insert c s1.suboptimalIdxs
                 suboptimalChunks := s1.suboptimalChunks ++ [c] }

/-- `Improve(parent, child)`: deactivate the dependency; on a self-merge
(the new top chunk depends on the new bottom chunk) merge straight back and
queue the result, otherwise run an upward merge sequence on the top and a
downward one on the bottom. -/
def Improve (s0 : SpanningForestState) (parentIdx childIdx : ℕ) : SpanningForestState :=
  let (pc, s1) := s0.Deactivate parentIdx childIdx
  let parentChunkIdx := pc.1
  let childChunkIdx := pc.2
  let parentReachable := (s1.reach parentChunkIdx).1
  let childChunkTxn := (s1.sinfo childChunkIdx).transactions
  if setOverlaps parentReachable childChunkTxn then
    let (m2, s2) := s1.MergeChunks childChunkIdx parentChunkIdx
    match m2 with
    | none => s2
    | some m =>
      if m ∈ s2.suboptimalIdxs then s2
      else { s2 with suboptimalIdxs := insert m s2.suboptimalIdxs
                     suboptimalChunks := s2.suboptimalChunks ++ [m] }
  else
    (s1.MergeSequence false parentChunkIdx).MergeSequence true childChunkIdx

end SpanningForestState

/-- The queue-draining loop of `PickChunkToOptimize`, on the bare queue. -/
def pickChunkAux (chunkIdxs : Finset ℕ) : List ℕ → Finset ℕ → Option ℕ × List ℕ × Finset ℕ
  | [], subIdxs => (none, [], subIdxs)
  | c :: rest, subIdxs =>
    if c ∈ chunkIdxs then (some c, rest, subIdxs.erase c)
    else pickChunkAux chunkIdxs rest (subIdxs.erase c)

/-- Swap two positions of a list (`std::swap` on vector elements). -/
def listSwap {α : Type} (d : α) (l : List α) (i j : ℕ) : List α :=
  (l.set i (l.getD j d)).set j (l.getD i d)

/-- The best element of a ready heap: with the strict total orders used by
`GetLinearization`, every `pop_heap` yields the unique maximum with respect
to the comparator, so the heap is modelled as a list from which the maximum
is selected. -/
def pickBest {α : Type} (less : α → α → Bool) : List α → Option α
  | [] => none
  | x :: t => some (t.foldl (fun best y => if less best y then y else best) x)

namespace SpanningForestState

/-- `PickChunkToOptimize()`: pop queue entries until one is still a chunk. -/
def PickChunkToOptimize (s : SpanningForestState) : Option ℕ × SpanningForestState :=
  let r := pickChunkAux s.chunkIdxs s.suboptimalChunks s.suboptimalIdxs
  (r.1, { s with suboptimalChunks := r.2.1, suboptimalIdxs := r.2.2 })

/-- `PickDependencyToSplit(chunk)`: a uniformly random active dependency in
the chunk whose top set has strictly higher feerate than the chunk. -/
def PickDependencyToSplit (s0 : SpanningForestState) (chunkIdx : ℕ) :
    Option (ℕ × ℕ) × SpanningForestState :=
  let chunkInfo := s0.sinfo chunkIdx
  let r := (sortAsc chunkInfo.transactions).foldl
    (fun (acc : Option (ℕ × ℕ) × ℕ × SpanningForestState) tx =>
      (sortAsc ((acc.2.2).txd tx).activeChildren).foldl
        (fun (acc2 : Option (ℕ × ℕ) × ℕ × SpanningForestState) childIdx =>
          let (cand, tie, s) := acc2
          let dti := (s.txd tx).depTopIdx.getD childIdx 0
          let cmp := FeeRateCompare (s.sinfo dti).feerate chunkInfo.feerate
          if cmp ≤ 0 then acc2
          else
            let (t, s2) := s.rand64
            if t < tie then (cand, tie, s2)
            else (some (tx, childIdx), t, s2)) acc)
    (none, 0, s0)
  (r.1, r.2.2)

/-- `OptimizeStep()`. -/
def OptimizeStep (s0 : SpanningForestState) : Bool × SpanningForestState :=
  let (c1, s1) := s0.PickChunkToOptimize
  match c1 with
  | none => (false, s1)
  | some chunkIdx =>
    let (dep, s2) := s1.PickDependencyToSplit chunkIdx
    match dep with
    | none => (!s2.suboptimalChunks.isEmpty, s2)
    | some (p, c) => (true, s2.Improve p c)

/-- `StartOptimizing()`: queue all chunks in a randomly shuffled order
(incremental back-swap shuffle). -/
def StartOptimizing (s0 : SpanningForestState) : SpanningForestState :=
  let s1 := { s0 with suboptimalIdxs := s0.chunkIdxs }
  (sortAsc s0.chunkIdxs).foldl (fun s c =>
    let q := s.suboptimalChunks ++ [c]
    let (j, s2) := s.randRange q.length
    let q2 := if j ≠ q.length - 1 then listSwap 0 q (q.length - 1) j else q
    { s2 with suboptimalChunks := q2 }) s1

/-- Queue a merge result during `MakeTopological` and mark it as merged. -/
def mtHandle (s : SpanningForestState) (merged : Finset ℕ) (r : ℕ) :
    SpanningForestState × Finset ℕ :=
  let s2 := if r ∈ s.suboptimalIdxs then s
            else { s with suboptimalIdxs := insert r s.suboptimalIdxs
                          suboptimalChunks := s.suboptimalChunks ++ [r] }
  (s2, insert r merged)

/-- One merge attempt of the `MakeTopological` body; the Bool reports
whether a merge happened (the loop's `break`). -/
def mtAttempt (s : SpanningForestState) (merged : Finset ℕ) (chunkIdx : ℕ) (down : Bool) :
    Bool × SpanningForestState × Finset ℕ :=
  let (r, s2) := s.MergeStep down chunkIdx
  match r with
  | some m =>
    let (s3, mg) := s2.mtHandle merged m
    (true, s3, mg)
  | none => (false, s2, merged)

/-- The two-iteration randomized-direction attempt loop of the
`MakeTopological` body: the first attempted direction is upward iff the flip
bit is set, and each direction is attempted only if permitted by
`direction` (1 = up, 2 = down, 3 = both). -/
def mtBody (s : SpanningForestState) (merged : Finset ℕ) (chunkIdx direction : ℕ) :
    SpanningForestState × Finset ℕ :=
  let (flip, s1) := s.randBool
  let firstDown := !flip
  let allowed := fun (down : Bool) =>
    if down then direction &&& 2 ≠ 0 else direction &&& 1 ≠ 0
  if allowed firstDown then
    let (ok, s2, m2) := s1.mtAttempt merged chunkIdx firstDown
    if ok then (s2, m2)
    else if allowed (!firstDown) then
      let (_, s3, m3) := s2.mtAttempt m2 chunkIdx (!firstDown)
      (s3, m3)
    else (s2, m2)
  else if allowed (!firstDown) then
    let (_, s3, m3) := s1.mtAttempt merged chunkIdx (!firstDown)
    (s3, m3)
  else (s1, merged)

/-- The queue-processing loop of `MakeTopological`. -/
def mtLoop (s : SpanningForestState) (merged : Finset ℕ) (initDir : ℕ) :
    ℕ → SpanningForestState
  | 0 => s
  | fuel + 1 =>
    match s.suboptimalChunks with
    | [] => s
    | c :: rest =>
      let s1 := { s with suboptimalChunks := rest, suboptimalIdxs := s.suboptimalIdxs.erase c }
      if c ∈ s1.chunkIdxs then
        let direction := if c ∈ merged then 3 else initDir + 1
        let r := s1.mtBody merged c direction
        r.1.mtLoop r.2 initDir fuel
      else s1.mtLoop merged initDir fuel

/-- `MakeTopological()`: queue all chunks shuffled, then process with
randomized single/double-direction merge attempts until the queue drains. -/
def MakeTopological (s0 : SpanningForestState) : SpanningForestState :=
  let (initB, s1) := s0.randBool
  let initDir := if initB then 1 else 0
  let s2 := { s1 with suboptimalIdxs := s1.chunkIdxs }
  let s3 := (sortAsc s1.chunkIdxs).foldl (fun s c =>
    let q := s.suboptimalChunks ++ [c]
    let (j, sr) := s.randRange q.length
    let q2 := if j ≠ q.length - 1 then listSwap 0 q (q.length - 1) j else q
    { sr with suboptimalChunks := q2 }) s2
  s3.mtLoop ∅ initDir (2 * s3.setInfo.length + 2)

/-- `LoadLinearization(old)`: for each transaction in order, run an upward
merge sequence on its chunk (no queueing). -/
def LoadLinearization (s0 : SpanningForestState) (old : List ℕ) : SpanningForestState :=
  old.foldl (fun s tx => (s.mergeSeqLoop false (s.txd tx).chunkIdx (s.setInfo.length + 1)).2) s0

/-- `StartMinimizing()`: queue every chunk with a random pivot and random
initial direction, shuffled. -/
def StartMinimizing (s0 : SpanningForestState) : SpanningForestState :=
  let s1 := { s0 with nonminimalChunks := [] }
  (sortAsc s0.chunkIdxs).foldl (fun s c =>
    let (pivot, s2) := s.PickRandomTx (s.sinfo c).transactions
    let (bit, s3) := s2.randBits1
    let q := s3.nonminimalChunks ++ [(c, pivot, bit)]
    let (j, s4) := s3.randRange q.length
    let q2 := if j ≠ q.length - 1 then listSwap (0, 0, 0) q (q.length - 1) j else q
    { s4 with nonminimalChunks := q2 }) s1

/-- `MinimizeStep()`. -/
def MinimizeStep (s0 : SpanningForestState) : Bool × SpanningForestState :=
  match s0.nonminimalChunks with
  | [] => (false, s0)
  | (chunkIdx, pivotIdx, flags) :: rest =>
    let s1 := { s0 with nonminimalChunks := rest }
    let chunkInfo := s1.sinfo chunkIdx
    let movePivotDown : Bool := (flags &&& 1) != 0
    let secondStage : Bool := (flags &&& 2) != 0
    let r := (sortAsc chunkInfo.transactions).foldl
      (fun (acc : ((ℕ × ℕ) × ℕ × Bool) × SpanningForestState) tx =>
        (sortAsc ((acc.2).txd tx).activeChildren).foldl
          (fun (acc2 : ((ℕ × ℕ) × ℕ × Bool) × SpanningForestState) childIdx =>
            let ((cand, tie, _), s) := acc2
            let dti := (s.txd tx).depTopIdx.getD childIdx 0
            let depTop := s.sinfo dti
            if FeeRateLT depTop.feerate chunkInfo.feerate then acc2
            else if movePivotDown == decide (pivotIdx ∈ depTop.transactions) then
              ((cand, tie, true), s)
            else
              let (t, s2) := s.rand64
              let t1 := t ||| 1
              if tie < t1 then (((tx, childIdx), t1, true), s2)
              else ((cand, tie, true), s2)) acc)
      (((0, 0), 0, false), s1)
    let ((cand, tie, haveAny), s2) := r
    if !haveAny then (true, s2)
    else if tie == 0 then
      if !secondStage then
        (true, { s2 with nonminimalChunks :=
          s2.nonminimalChunks ++ [(chunkIdx, pivotIdx, flags ^^^ 3)] })
      else (true, s2)
    else
      let (pc, s3) := s2.Deactivate cand.1 cand.2
      let parentChunkIdx := pc.1
      let childChunkIdx := pc.2
      let parentReachable := (s3.reach parentChunkIdx).1
      let childChunkTxn := (s3.sinfo childChunkIdx).transactions
      if setOverlaps parentReachable childChunkTxn then
        let (m2, s4) := s3.MergeChunks childChunkIdx parentChunkIdx
        match m2 with
        | none => (true, s4)
        | some m =>
          (true, { s4 with nonminimalChunks :=
            s4.nonminimalChunks ++ [(m, pivotIdx, flags)] })
      else
        let s5 :=
          if movePivotDown then
            let (pp, sa) := s3.PickRandomTx (s3.sinfo parentChunkIdx).transactions
            let (bit, sb) := sa.randBits1
            { sb with nonminimalChunks :=
              sb.nonminimalChunks ++ [(parentChunkIdx, pp, bit), (childChunkIdx, pivotIdx, flags)] }
          else
            let (cp, sa) := s3.PickRandomTx (s3.sinfo childChunkIdx).transactions
            let (bit, sb) := sa.randBits1
            { sb with nonminimalChunks :=
              sb.nonminimalChunks ++ [(parentChunkIdx, pivotIdx, flags), (childChunkIdx, cp, bit)] }
        let (swapB, s6) := s5.randBool
        if swapB then
          let q := s6.nonminimalChunks
          (true, { s6 with nonminimalChunks := listSwap (0, 0, 0) q (q.length - 1) (q.length - 2) })
        else (true, s6)

/-- The transaction comparator of `GetLinearization` ("a after b"): lower
feerate first, then larger size, then larger by fallback order. -/
def txCmp (s : SpanningForestState) (fallback : ℕ → ℕ → Ordering) (a b : ℕ) : Bool :=
  if a == b then false
  else
    let fa := s.graph.FeeRate a
    let fb := s.graph.FeeRate b
    let cmp := FeeRateCompare fa fb
    if cmp != 0 then decide (cmp < 0)
    else if fa.size != fb.size then decide (fb.size < fa.size)
    else
      match fallback a b with
      | Ordering.lt => false
      | Ordering.gt => true
      | Ordering.eq => decide (a < b)

/-- The chunk comparator of `GetLinearization` ("a after b"), on pairs of
(chunk index, maximum member by fallback order). -/
def chunkCmp (s : SpanningForestState) (fallback : ℕ → ℕ → Ordering) (a b : ℕ × ℕ) : Bool :=
  if a.1 == b.1 then false
  else
    let fa := (s.sinfo a.1).feerate
    let fb := (s.sinfo b.1).feerate
    let cmp := FeeRateCompare fa fb
    if cmp != 0 then decide (cmp < 0)
    else if fa.size != fb.size then decide (fb.size < fa.size)
    else
      match fallback a.2 b.2 with
      | Ordering.lt => false
      | Ordering.gt => true
      | Ordering.eq => decide (a.2 < b.2)

/-- The `max_fallback_fn` of `GetLinearization`: the chunk member that is
greatest by the fallback order. -/
def maxFallback (s : SpanningForestState) (fallback : ℕ → ℕ → Ordering) (chunkIdx : ℕ) : ℕ :=
  match sortAsc (s.sinfo chunkIdx).transactions with
  | [] => 0
  | x :: t => t.foldl (fun ret i => if fallback i ret == Ordering.gt then i else ret) x

/-- Decrement of a `TxIdx` (uint32) dependency counter, with wraparound. -/
def decr32 (v : ℕ) : ℕ := (v + 4294967295) % 4294967296

/-- The per-chunk emission loop of `GetLinearization`: pop ready
transactions in comparator order, appending them and decrementing the
dependency counters of their children (possibly readying in-chunk
transactions and other chunks). -/
def emitTxLoop (s : SpanningForestState) (fallback : ℕ → ℕ → Ordering) (chunkIdx : ℕ)
    (chunkTxn : Finset ℕ) :
    ℕ → List ℕ → List ℕ → List ℕ → List (ℕ × ℕ) → List ℕ →
      List ℕ × List ℕ × List (ℕ × ℕ) × List ℕ
  | 0, txDeps, chunkDeps, _, readyChunks, acc => (txDeps, chunkDeps, readyChunks, acc)
  | fuel + 1, txDeps, chunkDeps, readyTx, readyChunks, acc =>
    match pickBest (s.txCmp fallback) readyTx with
    | none => (txDeps, chunkDeps, readyChunks, acc)
    | some tx =>
      let r := (sortAsc (s.txd tx).children).foldl
        (fun (st : List ℕ × List ℕ × List ℕ × List (ℕ × ℕ)) chl =>
          let (tD, cD, rT, rC) := st
          let v := decr32 (tD.getD chl 0)
          let tD := tD.set chl v
          let rT := if v == 0 && decide (chl ∈ chunkTxn) then rT ++ [chl] else rT
          let chlChunk := (s.txd chl).chunkIdx
          if chlChunk != chunkIdx then
            let w := decr32 (cD.getD chlChunk 0)
            let cD := cD.set chlChunk w
            let rC := if w == 0 then rC ++ [(chlChunk, s.maxFallback fallback chlChunk)] else rC
            (tD, cD, rT, rC)
          else (tD, cD, rT, rC))
        (txDeps, chunkDeps, readyTx.erase tx, readyChunks)
      s.emitTxLoop fallback chunkIdx chunkTxn fuel r.1 r.2.1 r.2.2.1 r.2.2.2 (acc ++ [tx])

/-- The chunk emission loop of `GetLinearization`. -/
def emitOuter (s : SpanningForestState) (fallback : ℕ → ℕ → Ordering) :
    ℕ → List ℕ → List ℕ → List (ℕ × ℕ) → List ℕ → List ℕ
  | 0, _, _, _, acc => acc
  | fuel + 1, txDeps, chunkDeps, readyChunks, acc =>
    match pickBest (s.chunkCmp fallback) readyChunks with
    | none => acc
    | some best =>
      let chunkTxn := (s.sinfo best.1).transactions
      let readyTx := (sortAsc chunkTxn).filter fun tx => txDeps.getD tx 0 == 0
      let r := s.emitTxLoop fallback best.1 chunkTxn (s.txData.length + 1)
        txDeps chunkDeps readyTx (readyChunks.erase best) acc
      s.emitOuter fallback fuel r.1 r.2.1 r.2.2.1 r.2.2.2

/-- `GetLinearization(fallback_order)`: Kahn-style emission of chunks and
transactions as in the code, with the ready heaps modelled as lists from
which the comparator maximum is drawn (the comparators are strict total
orders whenever `fallback_order` is one, so this is exactly the heap's pop
order). -/
def GetLinearization (s : SpanningForestState) (fallback : ℕ → ℕ → Ordering) : List ℕ :=
  let dep := (sortAsc s.transactionIdxs).foldl
    (fun (st : List ℕ × List ℕ) chl =>
      let (tD, cD) := st
      let td := s.txd chl
      let tD := tD.set chl td.parents.card
      let cc := td.chunkIdx
      let cD := cD.set cc (cD.getD cc 0 + (td.parents \ (s.sinfo cc).transactions).card)
      (tD, cD))
    (List.replicate s.txData.length 0, List.replicate s.setInfo.length 0)
  let readyChunks := (sortAsc s.chunkIdxs).foldl
    (fun rc ci => if dep.2.getD ci 0 == 0 then rc ++ [(ci, s.maxFallback fallback ci)] else rc) []
  s.emitOuter fallback (s.setInfo.length + 1) dep.1 dep.2 readyChunks []

end SpanningForestState

/-- The optimization loop of `Linearize`: `do { if (!OptimizeStep()) break; }
while (cost < max_iterations)`.  Fuel is ample: every improving step raises
the cost and every other continuing step shortens the queue. -/
def optLoop (maxIter : ℕ) : ℕ → SpanningForestState → SpanningForestState
  | 0, s => s
  | fuel + 1, s =>
    let (cont, s1) := s.OptimizeStep
    if cont then (if s1.cost < maxIter then optLoop maxIter fuel s1 else s1) else s1

/-- The minimization loop of `Linearize`; returns the `optimal` flag (set
only when `MinimizeStep` reports completion). -/
def minLoop (maxIter : ℕ) : ℕ → SpanningForestState → Bool × SpanningForestState
  | 0, s => (false, s)
  | fuel + 1, s =>
    let (cont, s1) := s.MinimizeStep
    if !cont then (true, s1)
    else if s1.cost < maxIter then minLoop maxIter fuel s1
    else (false, s1)

/-- The setup stage of `Linearize`: construct the forest and either load the
prior linearization (calling MakeTopological if it is not marked
topological) or call MakeTopological directly. -/
def linSetup (depgraph : DepGraph) (rngSeed : ℕ) (oldLinearization : List ℕ)
    (isTopological : Bool) : SpanningForestState :=
  let forest := SpanningForestState.init depgraph rngSeed
  if !oldLinearization.isEmpty then
    let f2 := forest.LoadLinearization oldLinearization
    if !isTopological then f2.MakeTopological else f2
  else forest.MakeTopological

/-- The optimization stage of `Linearize`. -/
def linOptimize (maxIterations : ℕ) (forest : SpanningForestState) : SpanningForestState :=
  if forest.cost < maxIterations then
    optLoop maxIterations (3 * maxIterations + forest.setInfo.length + 8) forest.StartOptimizing
  else forest

/-- The minimization stage of `Linearize`; the Bool is the `optimal` flag. -/
def linMinimize (maxIterations : ℕ) (forest : SpanningForestState) :
    Bool × SpanningForestState :=
  if forest.cost < maxIterations then
    minLoop maxIterations (3 * maxIterations + 3 * forest.setInfo.length + 8)
      forest.StartMinimizing
  else (false, forest)

/-- `Linearize(depgraph, max_iterations, rng_seed, fallback_order,
old_linearization, is_topological)`: returns (linearization, optimal,
cost). -/
def Linearize (depgraph : DepGraph) (maxIterations : ℕ) (rngSeed : ℕ)
    (fallback : ℕ → ℕ → Ordering) (oldLinearization : List ℕ) (isTopological : Bool) :
    List ℕ × Bool × ℕ :=
  let om := linMinimize maxIterations
    (linOptimize maxIterations (linSetup depgraph rngSeed oldLinearization isTopological))
  ((om.2.GetLinearization fallback, om.1, om.2.cost))

/-- The index comparator used as a concrete fallback order (the spec's
"just sorts by DepGraphIndex" default). -/
def idxOrd : ℕ → ℕ → Ordering := fun a b => compare a b

/-! ## Claim C5 -/

/-- Two independent transactions of identical feerate (1, 1). -/
def twoTxGraph : DepGraph := runOps [DGOp.addTx ⟨1, 1⟩, DGOp.addTx ⟨1, 1⟩]

/-- Claim C5, counterexample: on the acyclic graph with two independent
feerate-(1,1) transactions, Linearize (any budget, seed 0, index fallback)
returns [0, 1], whose chunk feerates are [(1,1), (1,1)] — equal, hence not
strictly decreasing. -/
theorem C5_counterexample :
    strictlyDecreasing
      (ChunkLinearization twoTxGraph (Linearize twoTxGraph 2 0 idxOrd [] true).1) = false := by
  decide

/-- Claim C5 (amended): the chunk feerates of the linearization returned by
Linearize form a non-increasing sequence — no chunk's feerate is strictly
higher than its predecessor's (adjacent chunks may have equal feerates, so
"strictly decreasing" fails in general). -/
theorem C5_amended (g : DepGraph) (maxIterations rngSeed : ℕ)
    (fallback : ℕ → ℕ → Ordering) (old : List ℕ) (isTopological : Bool) :
    feeratesNonIncreasing
      (ChunkLinearization g
        (Linearize g maxIterations rngSeed fallback old isTopological).1) = true :=
  (feeratesNonIncreasing_iff _).mpr (ChunkLinearization_nonincreasing g _)

/-! ## Claim C9 -/

/-- Claim C9: Linearize is deterministic — two invocations with equal
DepGraphs, budgets, seeds, fallback orders, prior linearizations and
topological flags return identical (order, optimal, cost) triples.  The
embedding is a pure function: the code's only source of variation is the
PRNG, which is itself a pure function of rng_seed. -/
theorem C9_theorem (g1 g2 : DepGraph) (mi1 mi2 s1 s2 : ℕ) (fb1 fb2 : ℕ → ℕ → Ordering)
    (old1 old2 : List ℕ) (t1 t2 : Bool) (hg : g1 = g2) (hmi : mi1 = mi2) (hs : s1 = s2)
    (hfb : fb1 = fb2) (hold : old1 = old2) (ht : t1 = t2) :
    Linearize g1 mi1 s1 fb1 old1 t1 = Linearize g2 mi2 s2 fb2 old2 t2 := by
  subst hg hmi hs hfb hold ht
  rfl

/-- Witness for C9 at a concrete invocation. -/
theorem C9_witness :
    Linearize twoTxGraph 2 0 idxOrd [] true = Linearize twoTxGraph 2 0 idxOrd [] true :=
  C9_theorem _ _ _ _ _ _ _ _ _ _ _ _ rfl rfl rfl rfl rfl rfl

/-! ## Claim C6 -/

/-- Claim C6, counterexample: on the empty DepGraph with max_iterations = 0,
Linearize skips both the optimization and minimization phases (the guard is
`cost < max_iterations` with cost 0), so it returns optimal = false, not
true as the claim states for every max_iterations. -/
theorem C6_counterexample :
    (Linearize DepGraph.empty 0 0 idxOrd [] true).2.1 = false := by
  decide

end ClusterLinearize
